import Mathlib

/-!
Verification development for the bs3 block-storage engine.

The definitions below are a shallow embedding of the Go sources:

* `internal/bs3/mapproxy/sectormap` (`key.go` in the claim sources):
  `SectorMetadata`, `SectorMap`, `New`, `Update`, `updateExtent`,
  `updateUtilization`, `updateSector`, `Lookup`, `Serialize`,
  `DeserializeAndReturnNextKey`.
* `internal/bs3/bs3.go`: `filterKeysToCollect`, the read-path reference
  counter, the recovery header parser of `restoreFromObjects`, and the
  effect of `BuseWrite` on the map, the key counter and the store.

Go `map[int64]int64` values are modeled as association lists over `Int`;
reading a missing key yields `0`, exactly as a Go map read does.  Go
`map[int64]struct\x7b\x7d` sets are modeled as `List Int` with idempotent
insertion.  Go `int64` is modeled as `Int`; no arithmetic in the embedded
code can overflow 64 bits in the configurations the claims quantify over.
Slices are modeled as `List`, with Go's in-place index assignment modeled
by `List.set`.
-/

/-- Read from a Go `map[int64]int64`: a missing key reads as `0`. -/
def mget : List (Int × Int) → Int → Int
  | [], _ => 0
  | (k, v) :: rest, k' => if k = k' then v else mget rest k'

/-- Membership test of a Go map (`_, ok := m[k]`). -/
def mcontains : List (Int × Int) → Int → Bool
  | [], _ => false
  | (k, _) :: rest, k' => if k = k' then true else mcontains rest k'

/-- Go `delete(m, k)`. -/
def mdel (m : List (Int × Int)) (k : Int) : List (Int × Int) :=
  m.filter (fun p => p.1 != k)

/-- Go `m[k] = v`. -/
def mset (m : List (Int × Int)) (k v : Int) : List (Int × Int) :=
  (k, v) :: mdel m k

/-- Sum of all values stored in a Go map. -/
def msum (m : List (Int × Int)) : Int :=
  (m.map Prod.snd).sum

/-- The association list represents a map: keys are distinct. -/
def keysNodup (m : List (Int × Int)) : Prop :=
  (m.map Prod.fst).Nodup

/-- Insertion into a Go set (`m[k] = struct\x7b\x7d\x7b\x7d`). -/
def dinsert (l : List Int) (k : Int) : List Int :=
  if k ∈ l then l else k :: l

/-- `sectormap.SectorMetadata`: description of one logical sector. -/
structure SectorMetadata where
  sector : Int
  key : Int
  seqNo : Int
  flag : Int
deriving Repr, DecidableEq, Inhabited

/-- `mapproxy.Extent`: one logical write `(sector, length, seqNo, flag)`. -/
structure Extent where
  sector : Int
  length : Int
  seqNo : Int
  flag : Int
deriving Repr, DecidableEq, Inhabited

/-- `mapproxy.ObjectPart`: a contiguous slice of one stored object. -/
structure ObjectPart where
  sector : Int
  length : Int
  key : Int
deriving Repr, DecidableEq, Inhabited

/-- `sectormap.notMappedKey`. -/
def notMappedKey : Int := -1

/-- `sectormap.SectorMap`: flat per-sector array, per-object live-sector
counters, and the dead-object set. -/
structure SectorMap where
  sectors : List SectorMetadata
  objUtilizations : List (Int × Int)
  deadObjs : List Int
deriving Repr, DecidableEq

/-- Go `m.Sectors[i]` (int64 index; all claims carry in-range hypotheses,
out-of-range access is modeled by the `Inhabited` default). -/
def getSec (secs : List SectorMetadata) (i : Int) : SectorMetadata :=
  secs.getD i.toNat default

/-- Go `m.Sectors[i] = v`. -/
def setSec (secs : List SectorMetadata) (i : Int) (v : SectorMetadata) : List SectorMetadata :=
  secs.set i.toNat v

/-- One field of an `encoding/gob` decode: gob omits zero-valued struct
fields from the transmission, and `Decode` does not initialize the
destination, so an omitted (zero) field keeps the destination's previous
in-memory value while a transmitted (non-zero) field overwrites it. -/
def gobMergeInt (enc back : Int) : Int := if enc = 0 then back else enc

/-- `encoding/gob` decode of one `SectorMetadata` into existing memory:
fieldwise merge of the transmitted value over the destination entry. -/
def gobMergeSector (enc back : SectorMetadata) : SectorMetadata :=
  { sector := gobMergeInt enc.sector back.sector,
    key := gobMergeInt enc.key back.key,
    seqNo := gobMergeInt enc.seqNo back.seqNo,
    flag := gobMergeInt enc.flag back.flag }

namespace SectorMap

/-- `sectormap.New`: all sectors start unmapped (`Key = -1`, other fields
are the Go zero values). -/
def New (length : Nat) : SectorMap :=
  { sectors := List.replicate length { sector := 0, key := notMappedKey, seqNo := 0, flag := 0 },
    objUtilizations := [],
    deadObjs := [] }

/-- `SectorMap.updateUtilization`: increment the new key's counter, then
decrement the previous owner's counter, moving it to the dead set when it
reaches zero. -/
def updateUtilization (m : SectorMap) (key : Int) (s : SectorMetadata) : SectorMap :=
  let u1 := mset m.objUtilizations key (mget m.objUtilizations key + 1)
  if s.key ≠ notMappedKey then
    let u2 := mset u1 s.key (mget u1 s.key - 1)
    if mget u2 s.key = 0 then
      { m with objUtilizations := mdel u2 s.key,
               deadObjs := dinsert m.deadObjs s.key }
    else
      { m with objUtilizations := u2 }
  else
    { m with objUtilizations := u1 }

/-- `SectorMap.updateSector`: adjust utilization for the sector at index `i`
and overwrite its metadata (the Go code mutates through the pointer `s`,
which aliases `m.Sectors[i]`). -/
def updateSector (m : SectorMap) (key i targetSector : Int) (e : Extent) : SectorMap :=
  let m1 := updateUtilization m key (getSec m.sectors i)
  let v : SectorMetadata := { sector := targetSector, key := key, seqNo := e.seqNo, flag := e.flag }
  { m1 with sectors := setSec m1.sectors i v }

/-- Loop body of `SectorMap.updateExtent`: `for i := e.Sector; i < e.Sector+e.Length; i++`,
with `targetSector` incremented once per iteration.  The fuel is the
remaining iteration count. -/
def updateExtentLoop (e : Extent) (key : Int) : Nat → SectorMap → Int → Int → SectorMap
  | 0, m, _, _ => m
  | fuel + 1, m, i, targetSector =>
    let s := getSec m.sectors i
    let m' := if s.seqNo ≤ e.seqNo then updateSector m key i targetSector e else m
    updateExtentLoop e key fuel m' (i + 1) (targetSector + 1)

/-- `SectorMap.updateExtent`: replace every covered sector whose stored
`SeqNo` is `≤ e.seqNo` (equality because of GC). -/
def updateExtent (m : SectorMap) (e : Extent) (startOfDataSectors key : Int) : SectorMap :=
  updateExtentLoop e key e.length.toNat m e.sector startOfDataSectors

/-- `SectorMap.Update`: seed `ObjUtilizations[key] = 0`, apply the extents in
order (advancing `startOfDataSectors` by each extent's length), and move
`key` to the dead set when no write of the object survived. -/
def Update (m : SectorMap) (extents : List Extent) (startOfDataSectors key : Int) : SectorMap :=
  let m0 : SectorMap := { m with objUtilizations := mset m.objUtilizations key 0 }
  let p := extents.foldl
    (fun acc e => (updateExtent acc.1 e acc.2 key, acc.2 + e.length))
    (m0, startOfDataSectors)
  if mget p.1.objUtilizations key = 0 then
    { p.1 with objUtilizations := mdel p.1.objUtilizations key,
               deadObjs := dinsert p.1.deadObjs key }
  else
    p.1

/-- The run-break test of `SectorMap.Lookup`, verbatim from the Go
condition: start a new part when keys differ or in-object positions are not
consecutive, unless both sectors are unmapped. -/
def breakCond (prev cur : SectorMetadata) : Bool :=
  (cur.key != prev.key || cur.sector != prev.sector + 1) &&
    (cur.key != -1 || prev.key != notMappedKey)

/-- Loop of `SectorMap.Lookup` over the remaining sector entries.  `prev` is
the entry at index `id-1`, `s` the in-object start of the current part, `l`
its length so far; on a break the finished part is emitted and a new one
started at `cur`. -/
def lookupGo : SectorMetadata → Int → Int → List SectorMetadata → List ObjectPart
  | prev, s, l, [] => [{ sector := s, length := l, key := prev.key }]
  | prev, s, l, cur :: rest =>
    if breakCond prev cur then
      { sector := s, length := l, key := prev.key } :: lookupGo cur cur.sector 1 rest
    else
      lookupGo cur s (l + 1) rest

/-- `SectorMap.Lookup`: scan the entries of `[sector, sector+length)`
(the Go loop indexes `m.Sectors[sector+i]`, here the corresponding slice),
merging mergeable neighbours; the trailing part is always emitted with the
key of the last scanned entry. -/
def Lookup (m : SectorMap) (sector length : Int) : List ObjectPart :=
  match (m.sectors.drop sector.toNat).take length.toNat with
  | [] => []
  | first :: rest => lookupGo first first.sector 1 rest

/-- `SectorMap.Serialize`: the gob-encoded checkpoint is represented by the
struct value it was encoded from.  On the wire a zero-valued field and an
omitted field are indistinguishable (gob omits zero fields), so the struct
with its zero fields is an exact model of the transmission; the omission is
accounted for on the decode side by `gobMergeSector`. -/
def Serialize (m : SectorMap) : SectorMap := m

/-- `SectorMap.DeserializeAndReturnNextKey` on the allocated map `m` (built
by `New`, so its backing array is exactly `len(m.Sectors)` long) and the
transmitted checkpoint `decoded`.  When the persisted array fits the
allocated capacity, `gob.Decode` reuses the backing array and merges each
transmitted element fieldwise into the existing entry (`gobMergeSector`);
`m.Sectors[:cap(m.Sectors)]` then re-exposes the untouched backing tail.
When it does not fit, gob allocates fresh zeroed memory, into which the
fieldwise merge is the identity, and the Go code copies the first
`intendedSize` entries.  Afterwards the maximum key is computed and every
`SeqNo` zeroed. -/
def DeserializeAndReturnNextKey (m decoded : SectorMap) : SectorMap × Int :=
  let intendedSize := m.sectors.length
  let sectors :=
    if intendedSize < decoded.sectors.length then
      decoded.sectors.take intendedSize
    else
      List.zipWith gobMergeSector decoded.sectors m.sectors
        ++ m.sectors.drop decoded.sectors.length
  let maxKey := sectors.foldl (fun acc s => if s.key > acc then s.key else acc) notMappedKey
  ({ decoded with sectors := sectors.map (fun s => { s with seqNo := 0 }) }, maxKey + 1)

end SectorMap

/-- The maximum-key accumulator of `bs3.filterKeysToCollect`
(`var maxKey int64` starts at Go's zero value `0`). -/
def snapshotMaxKey (utilization : List (Int × Int)) : Int :=
  utilization.foldl (fun acc kv => if kv.1 > acc then kv.1 else acc) 0

/-- `bs3.filterKeysToCollect`: select the keys whose live-data ratio is
strictly below `ratio`, then drop the maximum key.  The float64 arithmetic
of the source is modeled exactly over `ℚ`, and the conditional
`delete(collect, maxKey)` on the Go set is modeled by a filter. -/
def filterKeysToCollect (utilization : List (Int × Int)) (ratio : ℚ)
    (blockSize chunkSize : Int) : List Int :=
  let collect := (utilization.filter
    (fun kv => ((kv.2 * blockSize : Int) : ℚ) / ((chunkSize : Int) : ℚ) < ratio)).map Prod.fst
  let maxKey := snapshotMaxKey utilization
  if maxKey ∈ collect then collect.filter (fun k => k != maxKey) else collect

/-- `bs3.getObjectPiecesRefCounterInc`, counter part: `refcounter[op.Key]++`
for every returned object part. -/
def refCounterInc (rc : List (Int × Int)) (objectPieces : List ObjectPart) : List (Int × Int) :=
  objectPieces.foldl (fun rc op => mset rc op.key (mget rc op.key + 1)) rc

/-- `bs3.objectPiecesRefCounterDec`: `refcounter[op.Key]--` for every part. -/
def refCounterDec (rc : List (Int × Int)) (objectPieces : List ObjectPart) : List (Int × Int) :=
  objectPieces.foldl (fun rc op => mset rc op.key (mget rc op.key - 1)) rc

/-- The header region of an object uploaded by `bs3.BuseWrite`, at 32-byte
slot granularity: the `writes` records parsed from the kernel chunk,
followed by the zeroed remainder of the header region (`slots` is
`metadata_size / write_item_size`).  A zeroed slot decodes to the Extent
with all fields `0`. -/
def writeHeaderRecords (ws : List Extent) (slots : Nat) : List Extent :=
  ws ++ List.replicate (slots - ws.length) { sector := 0, length := 0, seqNo := 0, flag := 0 }

/-- The header-parsing loop of `bs3.restoreFromObjects`, at 32-byte slot
granularity: parse records until one with `Length == 0`; advancing past the
downloaded buffer (`header[:b.write_item_size]` on an empty slice panics in
Go) is modeled by `none`. -/
def parseHeaderRecords : List Extent → Option (List Extent)
  | [] => none
  | e :: rest =>
    if e.length = 0 then some []
    else (parseHeaderRecords rest).map (fun l => e :: l)

/-- The bs3 engine state relevant to `BuseWrite`: the key counter, the
extent map, and the set of object keys actually stored on the backend. -/
structure BS3State where
  keyCounter : Int
  map : SectorMap
  store : List Int
deriving Repr, DecidableEq

/-- Effect of `bs3.BuseWrite` on the engine state: allocate `key :=
key.Next()`, attempt the upload (on failure the object never reaches the
store and the error is only logged), then unconditionally apply the map
update, and return the upload error to the shim.  `uploadOk = false`
models a failed upload; the returned Bool is `false` exactly when the Go
function returns a non-nil error. -/
def BuseWrite (st : BS3State) (extents : List Extent) (startOfDataSectors : Int)
    (uploadOk : Bool) : BS3State × Bool :=
  let key := st.keyCounter
  let store' := if uploadOk then st.store ++ [key] else st.store
  let map' := SectorMap.Update st.map extents startOfDataSectors key
  ({ keyCounter := key + 1, map := map', store := store' }, uploadOk)

/-!
Helper definitions used by the theorems: projections of the embedded code
onto single aspects (the sector array, run structure of `Lookup`, the
utilization inventory), together with the glue needed to state the claims.
-/

/-- Effect of `updateExtentLoop` on the `sectors` field alone (utilization
bookkeeping dropped); proved equal to the projection of the full loop. -/
def extentSectorsLoop (e : Extent) (key : Int) : Nat → List SectorMetadata → Int → Int → List SectorMetadata
  | 0, secs, _, _ => secs
  | fuel + 1, secs, i, targetSector =>
    let s := getSec secs i
    let secs' :=
      if s.seqNo ≤ e.seqNo then
        setSec secs i { sector := targetSector, key := key, seqNo := e.seqNo, flag := e.flag }
      else secs
    extentSectorsLoop e key fuel secs' (i + 1) (targetSector + 1)

/-- Effect of `updateExtent` on the sector array alone. -/
def extentSectors (secs : List SectorMetadata) (e : Extent) (startOfDataSectors key : Int) :
    List SectorMetadata :=
  extentSectorsLoop e key e.length.toNat secs e.sector startOfDataSectors

/-- Apply a flat list of `(extent, target start, key)` writes to a sector
array, in order. -/
def applySectorWrites (secs : List SectorMetadata) (l : List (Extent × Int × Int)) :
    List SectorMetadata :=
  l.foldl (fun secs x => extentSectors secs x.1 x.2.1 x.2.2) secs

/-- The `(extent, target start, key)` triples processed by one `Update`
call, in processing order (`startOfDataSectors` advances by each extent's
length). -/
def flattenTriples : List Extent → Int → Int → List (Extent × Int × Int)
  | [], _, _ => []
  | e :: es, start, key => (e, start, key) :: flattenTriples es (start + e.length) key

/-- The triples processed by a sequence of `Update` calls, in order.  Each
element of the sequence is `(extents, startOfDataSectors, key)`. -/
def flattenUpdates : List (List Extent × Int × Int) → List (Extent × Int × Int)
  | [] => []
  | u :: us => flattenTriples u.1 u.2.1 u.2.2 ++ flattenUpdates us

/-- A sequence of `Update` calls applied to a map. -/
def multiUpdate (m : SectorMap) (us : List (List Extent × Int × Int)) : SectorMap :=
  us.foldl (fun m u => SectorMap.Update m u.1 u.2.1 u.2.2) m

/-- The triple `x` writes logical sector `s`. -/
def covers (x : Extent × Int × Int) (s : Int) : Prop :=
  x.1.sector ≤ s ∧ s < x.1.sector + x.1.length

instance (x : Extent × Int × Int) (s : Int) : Decidable (covers x s) :=
  inferInstanceAs (Decidable (_ ∧ _))

/-- Negation of `SectorMap.breakCond`: two successive sector entries stay
in the same `Lookup` part exactly when they share the key and have
ascending consecutive in-object positions, or are both unmapped. -/
def mergeable (prev cur : SectorMetadata) : Bool :=
  (cur.key == prev.key && cur.sector == prev.sector + 1) || (cur.key == -1 && prev.key == -1)

/-- `mergeable` as a relation, for chain statements. -/
def mergeP (a b : SectorMetadata) : Prop := mergeable a b = true

instance (a b : SectorMetadata) : Decidable (mergeP a b) :=
  inferInstanceAs (Decidable (_ = true))

/-- The `ObjectPart` that `Lookup` emits for one maximal mergeable run. -/
def partOfRun (r : List SectorMetadata) : ObjectPart :=
  { sector := (r.headD default).sector, length := (r.length : Int), key := (r.getLastD default).key }

/-- Split the remaining entries into maximal mergeable runs; `prev` is the
last entry of the run `run` built so far. -/
def runSplitGo : SectorMetadata → List SectorMetadata → List SectorMetadata →
    List (List SectorMetadata)
  | _, run, [] => [run]
  | prev, run, cur :: rest =>
    if mergeable prev cur then runSplitGo cur (run ++ [cur]) rest
    else run :: runSplitGo cur [cur] rest

/-- Split a list of sector entries into maximal mergeable runs. -/
def runSplit : List SectorMetadata → List (List SectorMetadata)
  | [] => []
  | x :: xs => runSplitGo x [x] xs

/-- Number of adjacent non-mergeable pairs in `prev :: rest`. -/
def breaks : SectorMetadata → List SectorMetadata → Nat
  | _, [] => 0
  | prev, cur :: rest => (if mergeable prev cur then 0 else 1) + breaks cur rest

/-- Number of live sectors a key owns in a sector array. -/
def keyCount (secs : List SectorMetadata) (k : Int) : Nat :=
  (secs.filter (fun x => x.key == k)).length

/-- Inventory invariant of the utilization index: keys are distinct and
never `-1`, every counter equals the number of sectors its key owns and is
strictly positive, and every mapped sector's key has a counter. -/
def UtilOk (m : SectorMap) : Prop :=
  keysNodup m.objUtilizations ∧
  (∀ p ∈ m.objUtilizations, p.1 ≠ notMappedKey ∧ p.2 = (keyCount m.sectors p.1 : Int) ∧ 0 < p.2) ∧
  (∀ x ∈ m.sectors, x.key ≠ notMappedKey → mcontains m.objUtilizations x.key = true)

/-- Mid-`Update` variant of `UtilOk`: the counter of the key being written
is present but may still be zero. -/
def UtilMid (m : SectorMap) (key : Int) : Prop :=
  keysNodup m.objUtilizations ∧
  (∀ p ∈ m.objUtilizations, p.1 ≠ notMappedKey ∧ p.2 = (keyCount m.sectors p.1 : Int) ∧
    (p.1 ≠ key → 0 < p.2)) ∧
  (∀ x ∈ m.sectors, x.key ≠ notMappedKey → mcontains m.objUtilizations x.key = true) ∧
  mcontains m.objUtilizations key = true ∧ key ≠ notMappedKey

instance (m : List (Int × Int)) : Decidable (keysNodup m) :=
  inferInstanceAs (Decidable (List.Nodup _))

instance (m : SectorMap) : Decidable (UtilOk m) :=
  inferInstanceAs (Decidable (_ ∧ _ ∧ _))

instance (m : SectorMap) (key : Int) : Decidable (UtilMid m key) :=
  inferInstanceAs (Decidable (_ ∧ _ ∧ _ ∧ _ ∧ _))

/-!  Basic lemmas about the Go-map model. -/

theorem mget_nil (k : Int) : mget [] k = 0 := rfl

theorem mget_cons (a b k : Int) (rest : List (Int × Int)) :
    mget ((a, b) :: rest) k = if a = k then b else mget rest k := rfl

theorem mcontains_cons (a b k : Int) (rest : List (Int × Int)) :
    mcontains ((a, b) :: rest) k = if a = k then true else mcontains rest k := rfl

theorem mdel_cons_eq (a b k : Int) (rest : List (Int × Int)) (h : a = k) :
    mdel ((a, b) :: rest) k = mdel rest k := by
  simp [mdel, h]

theorem mdel_cons_ne (a b k : Int) (rest : List (Int × Int)) (h : a ≠ k) :
    mdel ((a, b) :: rest) k = (a, b) :: mdel rest k := by
  simp [mdel, h]

theorem mget_mdel_self (m : List (Int × Int)) (k : Int) : mget (mdel m k) k = 0 := by
  induction m with
  | nil => rfl
  | cons p rest ih =>
    obtain ⟨a, b⟩ := p
    by_cases h : a = k
    · rw [mdel_cons_eq a b k rest h]; exact ih
    · rw [mdel_cons_ne a b k rest h, mget_cons, if_neg h]; exact ih

theorem mget_mdel_ne (m : List (Int × Int)) (k k' : Int) (h : k ≠ k') :
    mget (mdel m k) k' = mget m k' := by
  induction m with
  | nil => rfl
  | cons p rest ih =>
    obtain ⟨a, b⟩ := p
    by_cases hp : a = k
    · have hp' : a ≠ k' := by rw [hp]; exact h
      rw [mdel_cons_eq a b k rest hp, mget_cons, if_neg hp']; exact ih
    · rw [mdel_cons_ne a b k rest hp, mget_cons, mget_cons]
      by_cases hk' : a = k'
      · rw [if_pos hk', if_pos hk']
      · rw [if_neg hk', if_neg hk']; exact ih

theorem mget_mset_self (m : List (Int × Int)) (k v : Int) : mget (mset m k v) k = v := by
  simp [mset, mget_cons]

theorem mget_mset_ne (m : List (Int × Int)) (k k' v : Int) (h : k ≠ k') :
    mget (mset m k v) k' = mget m k' := by
  rw [mset, mget_cons, if_neg h]
  exact mget_mdel_ne m k k' h

theorem mcontains_iff_mem_keys (m : List (Int × Int)) (k : Int) :
    mcontains m k = true ↔ k ∈ m.map Prod.fst := by
  induction m with
  | nil => simp [mcontains]
  | cons p rest ih =>
    obtain ⟨a, b⟩ := p
    by_cases h : a = k
    · simp [mcontains_cons, h]
    · simp [mcontains_cons, h, ih, Ne.symm h]

theorem mem_mdel (m : List (Int × Int)) (k : Int) (p : Int × Int) :
    p ∈ mdel m k ↔ p ∈ m ∧ p.1 ≠ k := by
  simp [mdel, List.mem_filter, bne_iff_ne]

theorem mem_mset (m : List (Int × Int)) (k v : Int) (p : Int × Int) :
    p ∈ mset m k v ↔ p = (k, v) ∨ (p ∈ m ∧ p.1 ≠ k) := by
  simp [mset, mem_mdel]

theorem keysNodup_mdel (m : List (Int × Int)) (k : Int) (h : keysNodup m) :
    keysNodup (mdel m k) := by
  unfold keysNodup mdel at *
  exact List.Nodup.sublist (List.Sublist.map Prod.fst (List.filter_sublist m)) h

theorem not_mem_keys_mdel (m : List (Int × Int)) (k : Int) :
    k ∉ (mdel m k).map Prod.fst := by
  intro hmem
  obtain ⟨p, hp, hfst⟩ := List.mem_map.mp hmem
  exact ((mem_mdel m k p).mp hp).2 hfst

theorem keysNodup_mset (m : List (Int × Int)) (k v : Int) (h : keysNodup m) :
    keysNodup (mset m k v) := by
  unfold keysNodup mset
  refine List.nodup_cons.mpr ⟨?_, keysNodup_mdel m k h⟩
  simpa using not_mem_keys_mdel m k

theorem mdel_of_not_contains (m : List (Int × Int)) (k : Int)
    (h : mcontains m k = false) : mdel m k = m := by
  induction m with
  | nil => rfl
  | cons p rest ih =>
    obtain ⟨a, b⟩ := p
    by_cases hp : a = k
    · rw [mcontains_cons, if_pos hp] at h; exact absurd h (by simp)
    · rw [mcontains_cons, if_neg hp] at h
      rw [mdel_cons_ne a b k rest hp, ih h]

theorem mget_eq_of_mem (m : List (Int × Int)) (k v : Int)
    (hnd : keysNodup m) (hmem : (k, v) ∈ m) : mget m k = v := by
  induction m with
  | nil => simp at hmem
  | cons p rest ih =>
    obtain ⟨a, b⟩ := p
    rcases List.mem_cons.mp hmem with h | h
    · obtain ⟨rfl, rfl⟩ := Prod.mk.injEq a b k v ▸ h.symm
      simp [mget_cons]
    · have hk : a ≠ k := by
        intro hpk
        have hmem' : k ∈ rest.map Prod.fst := List.mem_map.mpr ⟨(k, v), h, rfl⟩
        have hnd' := (List.nodup_cons.mp hnd).1
        rw [hpk] at hnd'
        exact hnd' hmem'
      rw [mget_cons, if_neg hk]
      exact ih (List.nodup_cons.mp hnd).2 h

theorem mem_of_mcontains (m : List (Int × Int)) (k : Int) (h : mcontains m k = true) :
    (k, mget m k) ∈ m := by
  induction m with
  | nil => simp [mcontains] at h
  | cons p rest ih =>
    obtain ⟨a, b⟩ := p
    by_cases hp : a = k
    · subst hp
      simp [mget_cons]
    · rw [mcontains_cons, if_neg hp] at h
      rw [mget_cons, if_neg hp]
      exact List.mem_cons_of_mem _ (ih h)

theorem mcontains_false_iff (m : List (Int × Int)) (k : Int) :
    mcontains m k = false ↔ k ∉ m.map Prod.fst := by
  rw [← Bool.not_eq_true, not_iff_not]
  exact mcontains_iff_mem_keys m k

theorem mcontains_mset_self (m : List (Int × Int)) (k v : Int) :
    mcontains (mset m k v) k = true := by
  simp [mset, mcontains_cons]

theorem mcontains_mset_ne (m : List (Int × Int)) (k k' v : Int) (h : k ≠ k') :
    mcontains (mset m k v) k' = mcontains m k' := by
  rw [mset, mcontains_cons, if_neg h]
  induction m with
  | nil => rfl
  | cons p rest ih =>
    obtain ⟨a, b⟩ := p
    by_cases hp : a = k
    · have hp' : a ≠ k' := by rw [hp]; exact h
      rw [mdel_cons_eq a b k rest hp, mcontains_cons, if_neg hp']; exact ih
    · rw [mdel_cons_ne a b k rest hp, mcontains_cons, mcontains_cons]
      by_cases hk' : a = k'
      · rw [if_pos hk', if_pos hk']
      · rw [if_neg hk', if_neg hk']; exact ih

theorem mcontains_mdel_self (m : List (Int × Int)) (k : Int) :
    mcontains (mdel m k) k = false := by
  rw [mcontains_false_iff]
  exact not_mem_keys_mdel m k

theorem mcontains_mdel_ne (m : List (Int × Int)) (k k' : Int) (h : k ≠ k') :
    mcontains (mdel m k) k' = mcontains m k' := by
  induction m with
  | nil => rfl
  | cons p rest ih =>
    obtain ⟨a, b⟩ := p
    by_cases hp : a = k
    · have hp' : a ≠ k' := by rw [hp]; exact h
      rw [mdel_cons_eq a b k rest hp, mcontains_cons, if_neg hp']; exact ih
    · rw [mdel_cons_ne a b k rest hp, mcontains_cons, mcontains_cons]
      by_cases hk' : a = k'
      · rw [if_pos hk', if_pos hk']
      · rw [if_neg hk', if_neg hk']; exact ih

/-!  Reference-counter lemmas (claim C9). -/

theorem mget_refCounterInc (rc : List (Int × Int)) (ps : List ObjectPart) (k : Int) :
    mget (refCounterInc rc ps) k
      = mget rc k + (ps.countP (fun p => p.key == k) : Int) := by
  induction ps generalizing rc with
  | nil => simp [refCounterInc]
  | cons p ps ih =>
    rw [refCounterInc, List.foldl_cons, ← refCounterInc, ih]
    by_cases h : p.key = k
    · rw [h, mget_mset_self, List.countP_cons]
      simp [h]
      ring
    · rw [mget_mset_ne rc p.key k _ h, List.countP_cons]
      simp [h]

theorem mget_refCounterDec (rc : List (Int × Int)) (ps : List ObjectPart) (k : Int) :
    mget (refCounterDec rc ps) k
      = mget rc k - (ps.countP (fun p => p.key == k) : Int) := by
  induction ps generalizing rc with
  | nil => simp [refCounterDec]
  | cons p ps ih =>
    rw [refCounterDec, List.foldl_cons, ← refCounterDec, ih]
    by_cases h : p.key = k
    · rw [h, mget_mset_self, List.countP_cons]
      simp [h]
      ring
    · rw [mget_mset_ne rc p.key k _ h, List.countP_cons]
      simp [h]

/-- C9 (amended): `getObjectPiecesRefCounterInc` increments a reference
counter for every part returned by `Lookup`, including unmapped parts with
`key == -1`, which therefore do get a refcount entry; the matching
decrement restores every counter, so a read leaves the refcounter as it
found it. -/
theorem refCounter_inc_every_part_and_balanced (rc : List (Int × Int))
    (ps : List ObjectPart) (k : Int) :
    mget (refCounterInc rc ps) k
        = mget rc k + (ps.countP (fun p => p.key == k) : Int) ∧
    mget (refCounterDec (refCounterInc rc ps) ps) k = mget rc k := by
  refine ⟨mget_refCounterInc rc ps k, ?_⟩
  rw [mget_refCounterDec, mget_refCounterInc]
  ring

/-- C9 (counterexample): looking up a single unmapped sector of a fresh map
returns the part `(0, 1, -1)`, and the read path's increment does create a
refcount entry for key `-1`, contrary to the claim that unmapped parts get
no refcount entry. -/
theorem refCounter_unmapped_entry_counterexample :
    SectorMap.Lookup (SectorMap.New 1) 0 1 = [{ sector := 0, length := 1, key := -1 }] ∧
    mcontains (refCounterInc [] (SectorMap.Lookup (SectorMap.New 1) 0 1)) (-1) = true ∧
    mget (refCounterInc [] (SectorMap.Lookup (SectorMap.New 1) 0 1)) (-1) = 1 := by
  refine ⟨rfl, rfl, rfl⟩

/-!  Recovery header parsing (claim C7). -/

/-- C7 (amended): as long as at least one header slot stays zeroed, i.e.
the number of writes is strictly below the number of 32-byte slots of the
header region, the roll-forward parser stops at the zeroed terminator slot
and returns exactly the written records, never reading past the header. -/
theorem parseHeaderRecords_safe_of_not_full (ws : List Extent) (slots : Nat)
    (hlen : ws.length < slots) (hnz : ∀ e ∈ ws, e.length ≠ 0) :
    parseHeaderRecords (writeHeaderRecords ws slots) = some ws := by
  induction ws generalizing slots with
  | nil =>
    obtain ⟨s, rfl⟩ : ∃ s, slots = s + 1 := ⟨slots - 1, by omega⟩
    simp [writeHeaderRecords, parseHeaderRecords, List.replicate_succ]
  | cons e ws ih =>
    have he : e.length ≠ 0 := hnz e (by simp)
    have harg : slots - (e :: ws).length = slots - 1 - ws.length := by
      simp only [List.length_cons]
      omega
    have hexp : writeHeaderRecords (e :: ws) slots = e :: writeHeaderRecords ws (slots - 1) := by
      unfold writeHeaderRecords
      rw [List.cons_append, harg]
    rw [hexp, parseHeaderRecords, if_neg he,
      ih (slots - 1) (by simp only [List.length_cons] at hlen; omega)
        (fun x hx => hnz x (by simp [hx]))]
    rfl

theorem parseHeaderRecords_safe_witness :
    parseHeaderRecords (writeHeaderRecords
      [{ sector := 0, length := 1, seqNo := 1, flag := 0 }] 2)
      = some [{ sector := 0, length := 1, seqNo := 1, flag := 0 }] :=
  parseHeaderRecords_safe_of_not_full
    [{ sector := 0, length := 1, seqNo := 1, flag := 0 }] 2 (by decide) (by decide)

/-- C7 (counterexample): when the writes fill every 32-byte header slot the
write path zeroes nothing, the header carries no `length == 0` terminator,
and the roll-forward parsing loop of `restoreFromObjects` runs past the end
of the downloaded header buffer (modeled by `none`; in Go the slice
expression `header[:b.write_item_size]` on the empty remainder panics). -/
theorem parseHeaderRecords_full_header_counterexample :
    parseHeaderRecords (writeHeaderRecords
      [{ sector := 0, length := 1, seqNo := 1, flag := 0 }] 1) = none := rfl

/-!  Write path on upload failure (claim C10). -/

/-- C10: when the upload of the freshly packed object fails, `BuseWrite`
returns the failure to the shim, yet still applies the extent-map update
for the newly allocated key; concretely, after a failed first write of
sector 0 the map points sector 0 at key 0 while the store holds no object,
so the map references an object that was never stored. -/
theorem buseWrite_failed_upload_still_updates_map :
    (∀ (st : BS3State) (extents : List Extent) (startOfDataSectors : Int),
      (BuseWrite st extents startOfDataSectors false).2 = false ∧
      (BuseWrite st extents startOfDataSectors false).1.map
        = SectorMap.Update st.map extents startOfDataSectors st.keyCounter ∧
      (BuseWrite st extents startOfDataSectors false).1.store = st.store) ∧
    ((BuseWrite { keyCounter := 0, map := SectorMap.New 1, store := [] }
        [{ sector := 0, length := 1, seqNo := 1, flag := 0 }] 8 false).1.map
        ≠ SectorMap.New 1 ∧
     getSec (BuseWrite { keyCounter := 0, map := SectorMap.New 1, store := [] }
        [{ sector := 0, length := 1, seqNo := 1, flag := 0 }] 8 false).1.map.sectors 0
        = { sector := 8, key := 0, seqNo := 1, flag := 0 } ∧
     (BuseWrite { keyCounter := 0, map := SectorMap.New 1, store := [] }
        [{ sector := 0, length := 1, seqNo := 1, flag := 0 }] 8 false).1.store = []) := by
  refine ⟨fun st extents startOfDataSectors => ⟨rfl, rfl, rfl⟩, ?_, rfl, rfl⟩
  decide

/-!  Fold-maximum lemmas for `DeserializeAndReturnNextKey` and
`snapshotMaxKey`. -/

theorem foldl_maxKey_le_iff (l : List SectorMetadata) (acc b : Int) :
    l.foldl (fun acc s => if s.key > acc then s.key else acc) acc ≤ b
      ↔ acc ≤ b ∧ ∀ s ∈ l, s.key ≤ b := by
  induction l generalizing acc with
  | nil => simp
  | cons x l ih =>
    rw [List.foldl_cons, ih]
    by_cases h : x.key > acc
    · rw [if_pos h]
      constructor
      · rintro ⟨h1, h2⟩
        exact ⟨le_trans (le_of_lt h) h1, fun s hs => by
          rcases List.mem_cons.mp hs with rfl | hs
          · exact h1
          · exact h2 s hs⟩
      · rintro ⟨h1, h2⟩
        exact ⟨h2 x (List.mem_cons_self x l), fun s hs => h2 s (List.mem_cons_of_mem x hs)⟩
    · rw [if_neg h]
      push_neg at h
      constructor
      · rintro ⟨h1, h2⟩
        exact ⟨h1, fun s hs => by
          rcases List.mem_cons.mp hs with rfl | hs
          · exact le_trans h h1
          · exact h2 s hs⟩
      · rintro ⟨h1, h2⟩
        exact ⟨h1, fun s hs => h2 s (List.mem_cons_of_mem x hs)⟩

theorem foldl_maxKey_mem_or_acc (l : List SectorMetadata) (acc : Int) :
    l.foldl (fun acc s => if s.key > acc then s.key else acc) acc = acc
      ∨ ∃ s ∈ l, l.foldl (fun acc s => if s.key > acc then s.key else acc) acc = s.key := by
  induction l generalizing acc with
  | nil => exact Or.inl rfl
  | cons x l ih =>
    rw [List.foldl_cons]
    by_cases h : x.key > acc
    · rw [if_pos h]
      rcases ih x.key with h1 | ⟨s, hs, h1⟩
      · exact Or.inr ⟨x, List.mem_cons_self x l, h1⟩
      · exact Or.inr ⟨s, List.mem_cons_of_mem x hs, h1⟩
    · rw [if_neg h]
      rcases ih acc with h1 | ⟨s, hs, h1⟩
      · exact Or.inl h1
      · exact Or.inr ⟨s, List.mem_cons_of_mem x hs, h1⟩

theorem le_foldl_maxKey (l : List SectorMetadata) (acc : Int) :
    acc ≤ l.foldl (fun acc s => if s.key > acc then s.key else acc) acc ∧
    ∀ s ∈ l, s.key ≤ l.foldl (fun acc s => if s.key > acc then s.key else acc) acc := by
  have := (foldl_maxKey_le_iff l acc
    (l.foldl (fun acc s => if s.key > acc then s.key else acc) acc)).mp le_rfl
  exact this

/-!  Checkpoint round-trip (claims C5 and C6).  `encoding/gob` omits
zero-valued struct fields from the encoding and `Decode` merges the
transmitted fields into the destination memory without initializing it,
modeled by `gobMergeSector`. -/

theorem gobMergeSector_zero_backing (s : SectorMetadata) :
    gobMergeSector s { sector := 0, key := 0, seqNo := 0, flag := 0 } = s := by
  cases s with
  | mk a b c d =>
    unfold gobMergeSector gobMergeInt
    by_cases h1 : a = 0 <;> by_cases h2 : b = 0 <;> by_cases h3 : c = 0 <;>
      by_cases h4 : d = 0 <;> simp [h1, h2, h3, h4]

theorem gobMergeSector_new (s : SectorMetadata) :
    gobMergeSector s { sector := 0, key := notMappedKey, seqNo := 0, flag := 0 }
      = { s with key := if s.key = 0 then notMappedKey else s.key } := by
  cases s with
  | mk a b c d =>
    unfold gobMergeSector gobMergeInt
    by_cases h1 : a = 0 <;> by_cases h3 : c = 0 <;> by_cases h4 : d = 0 <;>
      simp [h1, h3, h4]

theorem zipWith_gobMerge_replicate (l : List SectorMetadata) :
    ∀ (n : Nat) (u : SectorMetadata), l.length ≤ n →
      List.zipWith gobMergeSector l (List.replicate n u)
        = l.map (fun s => gobMergeSector s u) := by
  induction l with
  | nil => intro n u _; simp
  | cons a l ih =>
    intro n u h
    cases n with
    | zero => simp at h
    | succ n =>
      rw [List.replicate_succ, List.zipWith_cons_cons, List.map_cons,
        ih n u (by simpa using h)]

/-- Deserializing at unchanged device size: gob reuses the `New` backing
array (entries `sector 0, key -1, seqNo 0, flag 0`) and merges each
transmitted entry into it fieldwise; the resize branch then re-exposes an
empty tail. -/
theorem deserialize_same_size_eq (m : SectorMap) (n : Nat) (h : m.sectors.length = n) :
    SectorMap.DeserializeAndReturnNextKey (SectorMap.New n) (SectorMap.Serialize m)
      = ({ m with sectors := (m.sectors.map (fun s =>
            { s with key := if s.key = 0 then notMappedKey else s.key })).map (fun s =>
            { s with seqNo := 0 }) },
         (m.sectors.map (fun s =>
            { s with key := if s.key = 0 then notMappedKey else s.key })).foldl
            (fun acc s => if s.key > acc then s.key else acc) notMappedKey + 1) := by
  subst h
  have hlen : (SectorMap.New m.sectors.length).sectors.length = m.sectors.length := by
    simp [SectorMap.New]
  simp only [SectorMap.DeserializeAndReturnNextKey, SectorMap.Serialize]
  rw [hlen, if_neg (lt_irrefl m.sectors.length),
    List.drop_eq_nil_of_le (le_of_eq hlen), List.append_nil]
  rw [show (SectorMap.New m.sectors.length).sectors
      = List.replicate m.sectors.length
          ({ sector := 0, key := notMappedKey, seqNo := 0, flag := 0 } : SectorMetadata)
    from rfl]
  rw [zipWith_gobMerge_replicate m.sectors m.sectors.length _ le_rfl]
  simp only [gobMergeSector_new]

/-- C5 (corrected): `encoding/gob` omits zero-valued struct fields and
`Decode` merges the transmitted entries fieldwise into the reused backing
array that `New` allocated, whose entries carry `Key = -1`.  Serializing
and deserializing at unchanged device size therefore yields the sector
array in which every entry with `Key = 0` has become an unmapped
(`Key = -1`) entry — the array is NOT always preserved — with all other
fields kept and every `SeqNo` zeroed, and the returned next key is `1 +`
the maximum key of the resulting merged array: every original key other
than `0` stays at most next key minus one; a map all of whose keys are
`-1` or `0` yields next key `0`; and when some key is neither `-1` nor `0`
(keys never below `-1`) the next key is `1 +` an actual nonzero key of the
array. -/
theorem serialize_deserialize_gob_roundtrip (m : SectorMap) (n : Nat)
    (h : m.sectors.length = n) :
    (SectorMap.DeserializeAndReturnNextKey (SectorMap.New n) (SectorMap.Serialize m)).1.sectors
      = m.sectors.map (fun s =>
          { s with key := if s.key = 0 then notMappedKey else s.key, seqNo := 0 }) ∧
    (∀ s ∈ m.sectors, s.key ≠ 0 →
      s.key ≤ (SectorMap.DeserializeAndReturnNextKey (SectorMap.New n)
        (SectorMap.Serialize m)).2 - 1) ∧
    ((∀ s ∈ m.sectors, s.key = notMappedKey ∨ s.key = 0) →
      (SectorMap.DeserializeAndReturnNextKey (SectorMap.New n) (SectorMap.Serialize m)).2 = 0) ∧
    ((∃ s ∈ m.sectors, s.key ≠ notMappedKey ∧ s.key ≠ 0) →
      (∀ s ∈ m.sectors, notMappedKey ≤ s.key) →
      ∃ s ∈ m.sectors, s.key ≠ 0 ∧
        s.key = (SectorMap.DeserializeAndReturnNextKey (SectorMap.New n)
          (SectorMap.Serialize m)).2 - 1) := by
  rw [deserialize_same_size_eq m n h]
  refine ⟨?_, ?_, ?_, ?_⟩
  · rw [List.map_map]
    rfl
  · intro s hs hk0
    have hmem : ({ s with key := if s.key = 0 then notMappedKey else s.key } : SectorMetadata)
        ∈ m.sectors.map (fun s =>
          { s with key := if s.key = 0 then notMappedKey else s.key }) :=
      List.mem_map_of_mem _ hs
    have hle := (le_foldl_maxKey
      (m.sectors.map (fun s =>
        { s with key := if s.key = 0 then notMappedKey else s.key }))
      notMappedKey).2 _ hmem
    have hkeq : ({ s with key := if s.key = 0 then notMappedKey else s.key }
        : SectorMetadata).key = s.key := by
      show (if s.key = 0 then notMappedKey else s.key) = s.key
      rw [if_neg hk0]
    rw [hkeq] at hle
    omega
  · intro hall
    have hle : (m.sectors.map (fun s =>
          { s with key := if s.key = 0 then notMappedKey else s.key })).foldl
          (fun acc s => if s.key > acc then s.key else acc) notMappedKey
        ≤ notMappedKey := by
      rw [foldl_maxKey_le_iff]
      refine ⟨le_rfl, ?_⟩
      intro e he
      rcases List.mem_map.mp he with ⟨s, hs, rfl⟩
      show (if s.key = 0 then notMappedKey else s.key) ≤ notMappedKey
      rcases hall s hs with hk | hk <;> simp [hk, notMappedKey]
    have hge := (le_foldl_maxKey (m.sectors.map (fun s =>
      { s with key := if s.key = 0 then notMappedKey else s.key })) notMappedKey).1
    have heq := le_antisymm hle hge
    rw [heq]
    simp [notMappedKey]
  · rintro ⟨s0, hs0, hs0k1, hs0k0⟩ hge
    have hmem0 : ({ s0 with key := if s0.key = 0 then notMappedKey else s0.key }
        : SectorMetadata)
        ∈ m.sectors.map (fun s =>
          { s with key := if s.key = 0 then notMappedKey else s.key }) :=
      List.mem_map_of_mem _ hs0
    have hfge := (le_foldl_maxKey
      (m.sectors.map (fun s =>
        { s with key := if s.key = 0 then notMappedKey else s.key }))
      notMappedKey).2 _ hmem0
    have hkeq0 : ({ s0 with key := if s0.key = 0 then notMappedKey else s0.key }
        : SectorMetadata).key = s0.key := by
      show (if s0.key = 0 then notMappedKey else s0.key) = s0.key
      rw [if_neg hs0k0]
    rw [hkeq0] at hfge
    have hpos : 1 ≤ s0.key := by
      have := hge s0 hs0
      simp only [notMappedKey] at this hs0k1
      omega
    rcases foldl_maxKey_mem_or_acc (m.sectors.map (fun s =>
        { s with key := if s.key = 0 then notMappedKey else s.key }))
        notMappedKey with hacc | ⟨e, he, hkey⟩
    · exfalso
      rw [hacc] at hfge
      simp only [notMappedKey] at hfge
      omega
    · rcases List.mem_map.mp he with ⟨s, hs, rfl⟩
      have hek : ({ s with key := if s.key = 0 then notMappedKey else s.key }
          : SectorMetadata).key = if s.key = 0 then notMappedKey else s.key := rfl
      rw [hek] at hkey
      by_cases hz : s.key = 0
      · exfalso
        rw [if_pos hz] at hkey
        rw [hkey] at hfge
        simp only [notMappedKey] at hfge
        omega
      · rw [if_neg hz] at hkey
        exact ⟨s, hs, hz, by omega⟩

theorem serialize_deserialize_gob_witness :
    (SectorMap.DeserializeAndReturnNextKey (SectorMap.New 2)
        (SectorMap.Serialize (SectorMap.Update (SectorMap.New 2)
          [{ sector := 0, length := 2, seqNo := 1, flag := 0 }] 8 1))).1.sectors
      = (SectorMap.Update (SectorMap.New 2)
          [{ sector := 0, length := 2, seqNo := 1, flag := 0 }] 8 1).sectors.map (fun s =>
          { s with key := if s.key = 0 then notMappedKey else s.key, seqNo := 0 }) ∧
    (∃ s ∈ (SectorMap.Update (SectorMap.New 2)
          [{ sector := 0, length := 2, seqNo := 1, flag := 0 }] 8 1).sectors,
      s.key ≠ 0 ∧
      s.key = (SectorMap.DeserializeAndReturnNextKey (SectorMap.New 2)
        (SectorMap.Serialize (SectorMap.Update (SectorMap.New 2)
          [{ sector := 0, length := 2, seqNo := 1, flag := 0 }] 8 1))).2 - 1) := by
  have h := serialize_deserialize_gob_roundtrip
    (SectorMap.Update (SectorMap.New 2)
      [{ sector := 0, length := 2, seqNo := 1, flag := 0 }] 8 1) 2 (by decide)
  exact ⟨h.1, h.2.2.2 (by decide) (by decide)⟩

/-- C5 counterexample to the original round-trip claim: a map whose sector
`0` is owned by object key `0` (the very first key the engine hands out).
After serializing and deserializing at unchanged device size, the sector
array is not preserved — the `Key = 0` field was omitted by gob and the
entry keeps the backing value `-1`, so the sector reads as unmapped — and
the returned next key is `0`, not `1 + 0 = 1`. -/
theorem serialize_deserialize_roundtrip_counterexample :
    (getSec (SectorMap.Update (SectorMap.New 2)
        [{ sector := 0, length := 1, seqNo := 1, flag := 0 }] 8 0).sectors 0).key = 0 ∧
    (SectorMap.DeserializeAndReturnNextKey (SectorMap.New 2)
        (SectorMap.Serialize (SectorMap.Update (SectorMap.New 2)
          [{ sector := 0, length := 1, seqNo := 1, flag := 0 }] 8 0))).1.sectors
      ≠ (SectorMap.Update (SectorMap.New 2)
          [{ sector := 0, length := 1, seqNo := 1, flag := 0 }] 8 0).sectors.map
          (fun s => { s with seqNo := 0 }) ∧
    (getSec (SectorMap.DeserializeAndReturnNextKey (SectorMap.New 2)
        (SectorMap.Serialize (SectorMap.Update (SectorMap.New 2)
          [{ sector := 0, length := 1, seqNo := 1, flag := 0 }] 8 0))).1.sectors 0).key
      = notMappedKey ∧
    (SectorMap.DeserializeAndReturnNextKey (SectorMap.New 2)
        (SectorMap.Serialize (SectorMap.Update (SectorMap.New 2)
          [{ sector := 0, length := 1, seqNo := 1, flag := 0 }] 8 0))).2 = 0 := by
  decide

/-- C6: deserializing a checkpoint into a map configured with a different
device size.  When the persisted array is longer than the configured size,
gob must allocate fresh (zeroed) memory — merging into zeroes is the
identity, so the decode is exact — and the code keeps exactly the first
configured-size entries, dropping the excess tail (`SeqNo` zeroed).  When
it is shorter, the decoded array is re-extended to the configured size
over the `New` backing array, so every grown entry is an unmapped
(`key = -1`) entry. -/
theorem deserialize_size_change_spec (m : SectorMap) (n : Nat) :
    (n < m.sectors.length →
      (SectorMap.DeserializeAndReturnNextKey (SectorMap.New n) (SectorMap.Serialize m)).1.sectors
        = (m.sectors.take n).map (fun s => { s with seqNo := 0 })) ∧
    (m.sectors.length ≤ n →
      (SectorMap.DeserializeAndReturnNextKey (SectorMap.New n)
          (SectorMap.Serialize m)).1.sectors.length = n ∧
      (SectorMap.DeserializeAndReturnNextKey (SectorMap.New n)
          (SectorMap.Serialize m)).1.sectors.drop m.sectors.length
        = List.replicate (n - m.sectors.length)
            { sector := 0, key := notMappedKey, seqNo := 0, flag := 0 }) := by
  have hlen : (SectorMap.New n).sectors.length = n := by
    simp [SectorMap.New]
  constructor
  · intro hlt
    simp only [SectorMap.DeserializeAndReturnNextKey, SectorMap.Serialize]
    rw [hlen, if_pos hlt]
  · intro hle
    simp only [SectorMap.DeserializeAndReturnNextKey, SectorMap.Serialize]
    rw [hlen, if_neg (not_lt.mpr hle)]
    have hzlen : (List.zipWith gobMergeSector m.sectors (SectorMap.New n).sectors).length
        = m.sectors.length := by
      rw [List.length_zipWith, hlen]
      omega
    constructor
    · show ((List.zipWith gobMergeSector m.sectors (SectorMap.New n).sectors
          ++ (SectorMap.New n).sectors.drop m.sectors.length).map _).length = n
      rw [List.length_map, List.length_append, hzlen, SectorMap.New, List.drop_replicate,
        List.length_replicate]
      omega
    · show ((List.zipWith gobMergeSector m.sectors (SectorMap.New n).sectors
          ++ (SectorMap.New n).sectors.drop m.sectors.length).map
          (fun s => { s with seqNo := 0 })).drop m.sectors.length = _
      rw [List.map_append,
        List.drop_left' (by rw [List.length_map, hzlen]),
        SectorMap.New, List.drop_replicate, List.map_replicate]

theorem deserialize_size_change_witness :
    (SectorMap.DeserializeAndReturnNextKey (SectorMap.New 2)
        (SectorMap.Serialize (SectorMap.Update (SectorMap.New 3)
          [{ sector := 0, length := 1, seqNo := 1, flag := 0 }] 8 0))).1.sectors
      = ((SectorMap.Update (SectorMap.New 3)
          [{ sector := 0, length := 1, seqNo := 1, flag := 0 }] 8 0).sectors.take 2).map
          (fun s => { s with seqNo := 0 }) ∧
    (SectorMap.DeserializeAndReturnNextKey (SectorMap.New 4)
        (SectorMap.Serialize (SectorMap.New 3))).1.sectors.length = 4 ∧
    (SectorMap.DeserializeAndReturnNextKey (SectorMap.New 4)
        (SectorMap.Serialize (SectorMap.New 3))).1.sectors.drop 3
      = List.replicate 1 { sector := 0, key := notMappedKey, seqNo := 0, flag := 0 } := by
  refine ⟨(deserialize_size_change_spec (SectorMap.Update (SectorMap.New 3)
    [{ sector := 0, length := 1, seqNo := 1, flag := 0 }] 8 0) 2).1 (by decide), ?_⟩
  have h := (deserialize_size_change_spec (SectorMap.New 3) 4).2 (by decide)
  exact ⟨h.1, h.2⟩

/-!  Threshold-GC key selection (claim C8). -/

theorem snapshotMaxKey_le_iff (util : List (Int × Int)) (acc b : Int) :
    util.foldl (fun acc kv => if kv.1 > acc then kv.1 else acc) acc ≤ b
      ↔ acc ≤ b ∧ ∀ p ∈ util, p.1 ≤ b := by
  induction util generalizing acc with
  | nil => simp
  | cons x l ih =>
    rw [List.foldl_cons, ih]
    by_cases h : x.1 > acc
    · rw [if_pos h]
      constructor
      · rintro ⟨h1, h2⟩
        exact ⟨le_trans (le_of_lt h) h1, fun p hp => by
          rcases List.mem_cons.mp hp with rfl | hp
          · exact h1
          · exact h2 p hp⟩
      · rintro ⟨h1, h2⟩
        exact ⟨h2 x (List.mem_cons_self x l), fun p hp => h2 p (List.mem_cons_of_mem x hp)⟩
    · rw [if_neg h]
      push_neg at h
      constructor
      · rintro ⟨h1, h2⟩
        exact ⟨h1, fun p hp => by
          rcases List.mem_cons.mp hp with rfl | hp
          · exact le_trans h h1
          · exact h2 p hp⟩
      · rintro ⟨h1, h2⟩
        exact ⟨h1, fun p hp => h2 p (List.mem_cons_of_mem x hp)⟩

theorem snapshotMaxKey_mem_or_acc (util : List (Int × Int)) (acc : Int) :
    util.foldl (fun acc kv => if kv.1 > acc then kv.1 else acc) acc = acc
      ∨ ∃ p ∈ util, util.foldl (fun acc kv => if kv.1 > acc then kv.1 else acc) acc = p.1 := by
  induction util generalizing acc with
  | nil => exact Or.inl rfl
  | cons x l ih =>
    rw [List.foldl_cons]
    by_cases h : x.1 > acc
    · rw [if_pos h]
      rcases ih x.1 with h1 | ⟨p, hp, h1⟩
      · exact Or.inr ⟨x, List.mem_cons_self x l, h1⟩
      · exact Or.inr ⟨p, List.mem_cons_of_mem x hp, h1⟩
    · rw [if_neg h]
      rcases ih acc with h1 | ⟨p, hp, h1⟩
      · exact Or.inl h1
      · exact Or.inr ⟨p, List.mem_cons_of_mem x hp, h1⟩

theorem mem_collect_iff (util : List (Int × Int)) (ratio : ℚ) (blockSize chunkSize k : Int) :
    (k ∈ (util.filter
      (fun kv => ((kv.2 * blockSize : Int) : ℚ) / ((chunkSize : Int) : ℚ) < ratio)).map Prod.fst)
    ↔ ∃ v, (k, v) ∈ util ∧ ((v * blockSize : Int) : ℚ) / ((chunkSize : Int) : ℚ) < ratio := by
  rw [List.mem_map]
  constructor
  · rintro ⟨⟨a, b⟩, hmem, rfl⟩
    have := List.mem_filter.mp hmem
    exact ⟨b, this.1, by simpa using this.2⟩
  · rintro ⟨v, hmem, hlt⟩
    exact ⟨(k, v), List.mem_filter.mpr ⟨hmem, by simpa using hlt⟩, rfl⟩

/-- C8: the set of keys selected for threshold compaction is exactly the
set of snapshot keys whose live fraction `live * BlockSize / ChunkSize` is
strictly below the threshold, minus the snapshot's maximum key; a key whose
fraction equals the threshold is not selected (strict comparison), and the
maximum key is never selected.  Keys are nonnegative (they come from the
monotonic counter starting at 0), which makes the Go accumulator
`var maxKey int64 = 0` compute the true snapshot maximum. -/
theorem filterKeysToCollect_spec (util : List (Int × Int)) (ratio : ℚ)
    (blockSize chunkSize : Int) (hkeys : ∀ p ∈ util, 0 ≤ p.1) :
    (∀ k, k ∈ filterKeysToCollect util ratio blockSize chunkSize
      ↔ (∃ v, (k, v) ∈ util ∧ ((v * blockSize : Int) : ℚ) / ((chunkSize : Int) : ℚ) < ratio)
          ∧ k ≠ snapshotMaxKey util) ∧
    snapshotMaxKey util ∉ filterKeysToCollect util ratio blockSize chunkSize ∧
    (∀ k v, (k, v) ∈ util →
      ¬(((v * blockSize : Int) : ℚ) / ((chunkSize : Int) : ℚ) < ratio) →
      keysNodup util →
      k ∉ filterKeysToCollect util ratio blockSize chunkSize) ∧
    (util ≠ [] → ∃ p ∈ util, p.1 = snapshotMaxKey util) ∧
    (∀ p ∈ util, p.1 ≤ snapshotMaxKey util) := by
  have hmax_le : ∀ p ∈ util, p.1 ≤ snapshotMaxKey util := by
    intro p hp
    have := (snapshotMaxKey_le_iff util 0 (snapshotMaxKey util)).mp le_rfl
    exact this.2 p hp
  have hmember : ∀ k, k ∈ filterKeysToCollect util ratio blockSize chunkSize
      ↔ (∃ v, (k, v) ∈ util ∧ ((v * blockSize : Int) : ℚ) / ((chunkSize : Int) : ℚ) < ratio)
          ∧ k ≠ snapshotMaxKey util := by
    intro k
    unfold filterKeysToCollect
    simp only []
    by_cases hm : snapshotMaxKey util ∈ (util.filter
        (fun kv => ((kv.2 * blockSize : Int) : ℚ) / ((chunkSize : Int) : ℚ) < ratio)).map Prod.fst
    · rw [if_pos hm, List.mem_filter]
      rw [mem_collect_iff]
      simp [bne_iff_ne]
    · rw [if_neg hm, mem_collect_iff]
      constructor
      · intro h
        refine ⟨h, ?_⟩
        intro hk
        rw [hk] at h
        exact hm ((mem_collect_iff util ratio blockSize chunkSize _).mpr h)
      · exact fun h => h.1
  refine ⟨hmember, ?_, ?_, ?_, hmax_le⟩
  · intro hmem
    exact ((hmember _).mp hmem).2 rfl
  · intro k v hmem hnlt hnd hk
    obtain ⟨⟨v', hmem', hlt'⟩, _⟩ := (hmember k).mp hk
    have : v = v' := by
      have h1 := mget_eq_of_mem util k v hnd hmem
      have h2 := mget_eq_of_mem util k v' hnd hmem'
      rw [h1] at h2
      exact h2
    rw [← this] at hlt'
    exact hnlt hlt'
  · intro hne
    rcases snapshotMaxKey_mem_or_acc util 0 with hacc | ⟨p, hp, hkey⟩
    · obtain ⟨q, hq⟩ := List.exists_mem_of_ne_nil util hne
      refine ⟨q, hq, ?_⟩
      have h1 := hmax_le q hq
      have h2 := hkeys q hq
      have hz : snapshotMaxKey util = 0 := hacc
      omega
    · exact ⟨p, hp, hkey.symm⟩

theorem filterKeysToCollect_witness :
    (0 ∉ filterKeysToCollect [(0, 2), (1, 2)] (1 / 2 : ℚ) 4096 16384) ∧
    (1 ∉ filterKeysToCollect [(0, 2), (1, 2)] (1 / 2 : ℚ) 4096 16384) ∧
    (0 ∈ filterKeysToCollect [(0, 2), (1, 2)] (6 / 10 : ℚ) 4096 16384) := by
  have h1 := filterKeysToCollect_spec [(0, 2), (1, 2)] (1 / 2 : ℚ) 4096 16384 (by decide)
  have h2 := filterKeysToCollect_spec [(0, 2), (1, 2)] (6 / 10 : ℚ) 4096 16384 (by decide)
  refine ⟨?_, ?_, ?_⟩
  · exact h1.2.2.1 0 2 (by decide) (by norm_num) (by decide)
  · have : (1 : Int) = snapshotMaxKey [(0, 2), (1, 2)] := by decide
    rw [this]
    exact h1.2.1
  · rw [h2.1 0]
    refine ⟨⟨2, by decide, by norm_num⟩, by decide⟩

/-!  Sector-array access lemmas. -/

theorem getD_set_self {α : Type} : ∀ (l : List α) (n : Nat) (v d : α), n < l.length →
    (l.set n v).getD n d = v
  | _ :: _, 0, _, _, _ => rfl
  | _ :: l, n + 1, v, d, h => getD_set_self l n v d (by simpa using h)
  | [], n, v, d, h => by simp at h

theorem getD_set_ne {α : Type} : ∀ (l : List α) (n m : Nat) (v d : α), n ≠ m →
    (l.set n v).getD m d = l.getD m d
  | [], _, _, _, _, _ => rfl
  | _ :: _, 0, 0, _, _, h => absurd rfl h
  | _ :: _, 0, _ + 1, _, _, _ => rfl
  | _ :: _, _ + 1, 0, _, _, _ => rfl
  | _ :: l, n + 1, m + 1, v, d, h =>
    getD_set_ne l n m v d (fun hh => h (by rw [hh]))

theorem getSec_setSec_self (secs : List SectorMetadata) (i : Int) (v : SectorMetadata)
    (h : i.toNat < secs.length) : getSec (setSec secs i v) i = v :=
  getD_set_self secs i.toNat v default h

theorem getSec_setSec_ne (secs : List SectorMetadata) (i j : Int) (v : SectorMetadata)
    (hi : 0 ≤ i) (hj : 0 ≤ j) (h : i ≠ j) : getSec (setSec secs i v) j = getSec secs j :=
  getD_set_ne secs i.toNat j.toNat v default (by omega)

theorem length_setSec (secs : List SectorMetadata) (i : Int) (v : SectorMetadata) :
    (setSec secs i v).length = secs.length :=
  List.length_set secs i.toNat v

/-!  The `sectors` projection of the update loop. -/

theorem sectors_updateUtilization (m : SectorMap) (key : Int) (s : SectorMetadata) :
    (SectorMap.updateUtilization m key s).sectors = m.sectors := by
  unfold SectorMap.updateUtilization
  by_cases h : s.key ≠ notMappedKey
  · rw [if_pos h]
    by_cases h2 : mget (mset (mset m.objUtilizations key (mget m.objUtilizations key + 1))
        s.key (mget (mset m.objUtilizations key (mget m.objUtilizations key + 1)) s.key - 1))
        s.key = 0
    · rw [if_pos h2]
    · rw [if_neg h2]
  · rw [if_neg h]

theorem deadObjs_updateUtilization (m : SectorMap) (key : Int) (s : SectorMetadata)
    (h : s.key = notMappedKey) :
    (SectorMap.updateUtilization m key s).deadObjs = m.deadObjs := by
  unfold SectorMap.updateUtilization
  rw [if_neg (by simp [h])]

theorem sectors_updateSector (m : SectorMap) (key i t : Int) (e : Extent) :
    (SectorMap.updateSector m key i t e).sectors
      = setSec m.sectors i { sector := t, key := key, seqNo := e.seqNo, flag := e.flag } := by
  simp only [SectorMap.updateSector]
  rw [sectors_updateUtilization]

theorem sectors_updateExtentLoop (e : Extent) (key : Int) (fuel : Nat) :
    ∀ (m : SectorMap) (i t : Int),
    (SectorMap.updateExtentLoop e key fuel m i t).sectors
      = extentSectorsLoop e key fuel m.sectors i t := by
  induction fuel with
  | zero => intro m i t; rfl
  | succ fuel ih =>
    intro m i t
    rw [SectorMap.updateExtentLoop, extentSectorsLoop]
    by_cases h : (getSec m.sectors i).seqNo ≤ e.seqNo
    · simp only [if_pos h]
      rw [ih]
      congr 1
      exact sectors_updateSector m key i t e
    · simp only [if_neg h]
      exact ih m (i + 1) (t + 1)

theorem sectors_updateExtent (m : SectorMap) (e : Extent) (start key : Int) :
    (SectorMap.updateExtent m e start key).sectors = extentSectors m.sectors e start key :=
  sectors_updateExtentLoop e key e.length.toNat m e.sector start

theorem sectors_update_fold (extents : List Extent) (key : Int) :
    ∀ (m : SectorMap) (start : Int),
    ((extents.foldl (fun acc e => (SectorMap.updateExtent acc.1 e acc.2 key, acc.2 + e.length))
      (m, start)).1).sectors
      = applySectorWrites m.sectors (flattenTriples extents start key) := by
  induction extents with
  | nil => intro m start; rfl
  | cons e extents ih =>
    intro m start
    rw [List.foldl_cons, flattenTriples]
    have := ih (SectorMap.updateExtent m e start key) (start + e.length)
    rw [this, sectors_updateExtent]
    rfl

theorem sectors_Update (m : SectorMap) (extents : List Extent) (start key : Int) :
    (SectorMap.Update m extents start key).sectors
      = applySectorWrites m.sectors (flattenTriples extents start key) := by
  unfold SectorMap.Update
  simp only []
  by_cases h : mget ((extents.foldl
      (fun acc e => (SectorMap.updateExtent acc.1 e acc.2 key, acc.2 + e.length))
      ({ m with objUtilizations := mset m.objUtilizations key 0 }, start)).1).objUtilizations
      key = 0
  · rw [if_pos h]
    exact sectors_update_fold extents key _ start
  · rw [if_neg h]
    exact sectors_update_fold extents key _ start

theorem applySectorWrites_append (secs : List SectorMetadata)
    (l₁ l₂ : List (Extent × Int × Int)) :
    applySectorWrites secs (l₁ ++ l₂) = applySectorWrites (applySectorWrites secs l₁) l₂ :=
  List.foldl_append _ _ l₁ l₂

theorem sectors_multiUpdate (us : List (List Extent × Int × Int)) :
    ∀ (m : SectorMap),
    (multiUpdate m us).sectors = applySectorWrites m.sectors (flattenUpdates us) := by
  induction us with
  | nil => intro m; rfl
  | cons u us ih =>
    intro m
    rw [multiUpdate, List.foldl_cons, flattenUpdates, applySectorWrites_append]
    rw [← multiUpdate, ih, sectors_Update]

/-!  Pointwise characterization of the extent-write loop. -/

theorem length_extentSectorsLoop (e : Extent) (key : Int) (fuel : Nat) :
    ∀ (secs : List SectorMetadata) (i t : Int),
    (extentSectorsLoop e key fuel secs i t).length = secs.length := by
  induction fuel with
  | zero => intro secs i t; rfl
  | succ fuel ih =>
    intro secs i t
    rw [extentSectorsLoop]
    by_cases h : (getSec secs i).seqNo ≤ e.seqNo
    · simp only [if_pos h]
      rw [ih, length_setSec]
    · simp only [if_neg h]
      exact ih secs (i + 1) (t + 1)

theorem getSec_extentSectorsLoop (e : Extent) (key : Int) (fuel : Nat) :
    ∀ (secs : List SectorMetadata) (i t s : Int),
    0 ≤ i → 0 ≤ s → i + (fuel : Int) ≤ secs.length →
    getSec (extentSectorsLoop e key fuel secs i t) s =
      if i ≤ s ∧ s < i + (fuel : Int) ∧ (getSec secs s).seqNo ≤ e.seqNo then
        { sector := t + (s - i), key := key, seqNo := e.seqNo, flag := e.flag }
      else getSec secs s := by
  induction fuel with
  | zero =>
    intro secs i t s hi hs hb
    rw [if_neg (by omega)]
    rfl
  | succ fuel ih =>
    intro secs i t s hi hs hb
    rw [extentSectorsLoop]
    by_cases hcond : (getSec secs i).seqNo ≤ e.seqNo
    · simp only [if_pos hcond]
      have hlen : (setSec secs i
          { sector := t, key := key, seqNo := e.seqNo, flag := e.flag }).length
          = secs.length := length_setSec secs i _
      rw [ih (setSec secs i _) (i + 1) (t + 1) s (by omega) hs (by rw [hlen]; push_cast at hb ⊢; omega)]
      by_cases hsi : s = i
      · subst hsi
        rw [if_neg (by omega)]
        rw [getSec_setSec_self secs s _ (by push_cast at hb; omega)]
        rw [if_pos ⟨le_rfl, by push_cast; omega, hcond⟩]
        simp
      · rw [getSec_setSec_ne secs i s _ hi hs (fun h => hsi h.symm)]
        by_cases hin : i + 1 ≤ s ∧ s < i + 1 + (fuel : Int) ∧ (getSec secs s).seqNo ≤ e.seqNo
        · obtain ⟨hin1, hin2, hin3⟩ := hin
          rw [if_pos ⟨hin1, hin2, hin3⟩, if_pos ⟨by omega, by push_cast at hin2 ⊢; omega, hin3⟩]
          have : t + 1 + (s - (i + 1)) = t + (s - i) := by ring
          rw [this]
        · rw [if_neg hin, if_neg ?_]
          intro ⟨h1, h2, h3⟩
          apply hin
          refine ⟨by omega, by push_cast at h2 ⊢; omega, h3⟩
    · simp only [if_neg hcond]
      rw [ih secs (i + 1) (t + 1) s (by omega) hs (by push_cast at hb ⊢; omega)]
      by_cases hsi : s = i
      · subst hsi
        rw [if_neg (by omega), if_neg (by intro ⟨_, _, h3⟩; exact hcond h3)]
      · by_cases hin : i + 1 ≤ s ∧ s < i + 1 + (fuel : Int) ∧ (getSec secs s).seqNo ≤ e.seqNo
        · rw [if_pos hin, if_pos ⟨by omega, by push_cast; omega, hin.2.2⟩]
          have : t + 1 + (s - (i + 1)) = t + (s - i) := by ring
          rw [this]
        · rw [if_neg hin, if_neg ?_]
          intro ⟨h1, h2, h3⟩
          apply hin
          refine ⟨by omega, by push_cast at h2 ⊢; omega, h3⟩

theorem length_extentSectors (secs : List SectorMetadata) (e : Extent) (start key : Int) :
    (extentSectors secs e start key).length = secs.length :=
  length_extentSectorsLoop e key e.length.toNat secs e.sector start

theorem getSec_extentSectors (secs : List SectorMetadata) (e : Extent) (start key s : Int)
    (he : 0 ≤ e.sector) (hel : 0 ≤ e.length) (hb : e.sector + e.length ≤ (secs.length : Int))
    (hs : 0 ≤ s) :
    getSec (extentSectors secs e start key) s =
      if e.sector ≤ s ∧ s < e.sector + e.length ∧ (getSec secs s).seqNo ≤ e.seqNo then
        { sector := start + (s - e.sector), key := key, seqNo := e.seqNo, flag := e.flag }
      else getSec secs s := by
  have hcast : ((e.length.toNat : Nat) : Int) = e.length := Int.toNat_of_nonneg hel
  rw [extentSectors, getSec_extentSectorsLoop e key e.length.toNat secs e.sector start s he hs
    (by rw [hcast]; exact hb)]
  rw [hcast]

/-!  Dead-set lemmas. -/

theorem mem_dinsert_self (l : List Int) (k : Int) : k ∈ dinsert l k := by
  unfold dinsert
  by_cases h : k ∈ l
  · rw [if_pos h]; exact h
  · rw [if_neg h]; exact List.mem_cons_self k l

theorem mem_dinsert (l : List Int) (k j : Int) : j ∈ dinsert l k ↔ j = k ∨ j ∈ l := by
  unfold dinsert
  by_cases h : k ∈ l
  · rw [if_pos h]
    constructor
    · exact Or.inr
    · rintro (rfl | hj)
      · exact h
      · exact hj
  · rw [if_neg h]
    exact List.mem_cons

/-!  Utilization bookkeeping of a single replaced sector (claim C2). -/

theorem mget_updateUtilization (m : SectorMap) (key : Int) (s : SectorMetadata) (k : Int) :
    mget (SectorMap.updateUtilization m key s).objUtilizations k
      = mget m.objUtilizations k + (if k = key then 1 else 0)
        - (if s.key ≠ notMappedKey ∧ k = s.key then 1 else 0) := by
  unfold SectorMap.updateUtilization
  by_cases hks : s.key ≠ notMappedKey
  · simp only [if_pos hks]
    have hiff : (if s.key ≠ notMappedKey ∧ k = s.key then (1 : Int) else 0)
        = (if k = s.key then 1 else 0) := by
      by_cases h : k = s.key
      · rw [if_pos ⟨hks, h⟩, if_pos h]
      · rw [if_neg (fun hh => h hh.2), if_neg h]
    rw [hiff]
    have hu1 : ∀ j, mget (mset m.objUtilizations key (mget m.objUtilizations key + 1)) j
        = mget m.objUtilizations j + (if j = key then 1 else 0) := by
      intro j
      by_cases hj : j = key
      · subst hj; rw [mget_mset_self, if_pos rfl]
      · rw [mget_mset_ne _ _ _ _ (fun h => hj h.symm), if_neg hj]; ring
    have hu2 : ∀ j, mget (mset (mset m.objUtilizations key (mget m.objUtilizations key + 1))
          s.key (mget (mset m.objUtilizations key (mget m.objUtilizations key + 1)) s.key - 1)) j
        = mget m.objUtilizations j + (if j = key then 1 else 0)
          - (if j = s.key then 1 else 0) := by
      intro j
      by_cases hj : j = s.key
      · subst hj
        rw [mget_mset_self, hu1, if_pos rfl]
      · rw [mget_mset_ne _ _ _ _ (fun h => hj h.symm), hu1, if_neg hj]
        ring
    by_cases hz : mget (mset (mset m.objUtilizations key (mget m.objUtilizations key + 1))
        s.key (mget (mset m.objUtilizations key (mget m.objUtilizations key + 1)) s.key - 1))
        s.key = 0
    · simp only [if_pos hz]
      by_cases hk2 : k = s.key
      · subst hk2
        rw [mget_mdel_self, if_pos rfl]
        have h2 := (hu2 s.key).symm.trans hz
        rw [if_pos rfl] at h2
        exact h2.symm
      · rw [mget_mdel_ne _ _ _ (fun h => hk2 h.symm), hu2 k]
    · simp only [if_neg hz]
      exact hu2 k
  · simp only [if_neg hks]
    have hc : ¬(s.key ≠ notMappedKey ∧ k = s.key) := fun h => hks h.1
    rw [if_neg hc]
    by_cases hj : k = key
    · subst hj
      rw [mget_mset_self, if_pos rfl]
      ring
    · rw [mget_mset_ne _ _ _ _ (fun h => hj h.symm), if_neg hj]
      ring

theorem updateUtilization_prevKey (m : SectorMap) (key : Int) (s : SectorMetadata)
    (hks : s.key ≠ notMappedKey) :
    (mget m.objUtilizations s.key + (if key = s.key then 1 else 0) - 1 = 0 →
        mcontains (SectorMap.updateUtilization m key s).objUtilizations s.key = false ∧
        s.key ∈ (SectorMap.updateUtilization m key s).deadObjs) ∧
    (mget m.objUtilizations s.key + (if key = s.key then 1 else 0) - 1 ≠ 0 →
        (SectorMap.updateUtilization m key s).deadObjs = m.deadObjs ∧
        mcontains (SectorMap.updateUtilization m key s).objUtilizations s.key = true) := by
  unfold SectorMap.updateUtilization
  simp only [if_pos hks]
  have hu1 : mget (mset m.objUtilizations key (mget m.objUtilizations key + 1)) s.key
      = mget m.objUtilizations s.key + (if key = s.key then 1 else 0) := by
    by_cases hj : key = s.key
    · rw [← hj, mget_mset_self, if_pos rfl, hj]
    · rw [mget_mset_ne _ _ _ _ hj, if_neg hj]; ring
  have hu2 : mget (mset (mset m.objUtilizations key (mget m.objUtilizations key + 1))
        s.key (mget (mset m.objUtilizations key (mget m.objUtilizations key + 1)) s.key - 1)) s.key
      = mget m.objUtilizations s.key + (if key = s.key then 1 else 0) - 1 := by
    rw [mget_mset_self, hu1]
  constructor
  · intro hzero
    rw [if_pos (by rw [hu2]; exact hzero)]
    exact ⟨mcontains_mdel_self _ _, mem_dinsert_self _ _⟩
  · intro hnz
    rw [if_neg (by rw [hu2]; exact hnz)]
    exact ⟨rfl, mcontains_mset_self _ _ _⟩

theorem objUtilizations_updateSector (m : SectorMap) (key i t : Int) (e : Extent) :
    (SectorMap.updateSector m key i t e).objUtilizations
      = (SectorMap.updateUtilization m key (getSec m.sectors i)).objUtilizations := rfl

theorem deadObjs_updateSector (m : SectorMap) (key i t : Int) (e : Extent) :
    (SectorMap.updateSector m key i t e).deadObjs
      = (SectorMap.updateUtilization m key (getSec m.sectors i)).deadObjs := rfl

/-- C2: per covered sector, `updateExtent` replaces the entry (new key, new
in-object position, the extent's `seqNo` and `flag`) exactly when the
existing entry's `seqNo` is `≤ e.seqNo`, and leaves it unchanged otherwise;
and the per-replacement bookkeeping (`updateSector`, whose utilization part
is `updateUtilization`) increments the new key's counter by one, decrements
the previous owning key when the sector was mapped, moving it to the dead
set when its counter reaches zero, and touches the dead set in no other
case. -/
theorem update_per_sector_spec :
    (∀ (m : SectorMap) (e : Extent) (start key s : Int),
      0 ≤ e.sector → 0 ≤ e.length → e.sector + e.length ≤ (m.sectors.length : Int) →
      e.sector ≤ s → s < e.sector + e.length →
      ((getSec m.sectors s).seqNo ≤ e.seqNo →
        getSec (SectorMap.updateExtent m e start key).sectors s
          = { sector := start + (s - e.sector), key := key, seqNo := e.seqNo, flag := e.flag }) ∧
      (¬(getSec m.sectors s).seqNo ≤ e.seqNo →
        getSec (SectorMap.updateExtent m e start key).sectors s = getSec m.sectors s)) ∧
    (∀ (m : SectorMap) (key i t k : Int) (e : Extent),
      mget (SectorMap.updateSector m key i t e).objUtilizations k
        = mget m.objUtilizations k + (if k = key then 1 else 0)
          - (if (getSec m.sectors i).key ≠ notMappedKey ∧ k = (getSec m.sectors i).key
             then 1 else 0)) ∧
    (∀ (m : SectorMap) (key i t : Int) (e : Extent),
      (getSec m.sectors i).key ≠ notMappedKey →
      (mget m.objUtilizations (getSec m.sectors i).key
          + (if key = (getSec m.sectors i).key then 1 else 0) - 1 = 0 →
        mcontains (SectorMap.updateSector m key i t e).objUtilizations
          (getSec m.sectors i).key = false ∧
        (getSec m.sectors i).key ∈ (SectorMap.updateSector m key i t e).deadObjs) ∧
      (mget m.objUtilizations (getSec m.sectors i).key
          + (if key = (getSec m.sectors i).key then 1 else 0) - 1 ≠ 0 →
        (SectorMap.updateSector m key i t e).deadObjs = m.deadObjs ∧
        mcontains (SectorMap.updateSector m key i t e).objUtilizations
          (getSec m.sectors i).key = true)) ∧
    (∀ (m : SectorMap) (key i t : Int) (e : Extent),
      (getSec m.sectors i).key = notMappedKey →
      (SectorMap.updateSector m key i t e).deadObjs = m.deadObjs) := by
  refine ⟨?_, ?_, ?_, ?_⟩
  · intro m e start key s he hel hb hc1 hc2
    have hs : 0 ≤ s := le_trans he hc1
    have hchar := getSec_extentSectors m.sectors e start key s he hel hb hs
    rw [sectors_updateExtent] at *
    constructor
    · intro hseq
      rw [hchar, if_pos ⟨hc1, hc2, hseq⟩]
    · intro hseq
      rw [hchar, if_neg (fun h => hseq h.2.2)]
  · intro m key i t k e
    rw [objUtilizations_updateSector]
    exact mget_updateUtilization m key (getSec m.sectors i) k
  · intro m key i t e hks
    have h := updateUtilization_prevKey m key (getSec m.sectors i) hks
    rw [objUtilizations_updateSector, deadObjs_updateSector]
    exact h
  · intro m key i t e hks
    rw [deadObjs_updateSector]
    exact deadObjs_updateUtilization m key (getSec m.sectors i) hks

/-- Witness for the per-sector update specification at concrete inputs: a
fresh two-sector map written once, then a second write at higher `seqNo`
replacing sector 0, decrementing key 0 from two live sectors to one. -/
theorem update_per_sector_spec_witness :
    (getSec (SectorMap.updateExtent (SectorMap.Update (SectorMap.New 2)
        [{ sector := 0, length := 2, seqNo := 1, flag := 0 }] 8 0)
        { sector := 0, length := 1, seqNo := 2, flag := 0 } 8 1).sectors 0
      = { sector := 8, key := 1, seqNo := 2, flag := 0 }) ∧
    (mget (SectorMap.updateSector (SectorMap.Update (SectorMap.New 2)
        [{ sector := 0, length := 2, seqNo := 1, flag := 0 }] 8 0) 1 0 8
        { sector := 0, length := 1, seqNo := 2, flag := 0 }).objUtilizations 0
      = 1) := by
  have hA := (update_per_sector_spec.1 (SectorMap.Update (SectorMap.New 2)
      [{ sector := 0, length := 2, seqNo := 1, flag := 0 }] 8 0)
      { sector := 0, length := 1, seqNo := 2, flag := 0 } 8 1 0
      (by decide) (by decide) (by decide) (by decide) (by decide)).1 (by decide)
  have hB := update_per_sector_spec.2.1 (SectorMap.Update (SectorMap.New 2)
      [{ sector := 0, length := 2, seqNo := 1, flag := 0 }] 8 0) 1 0 8 0
      { sector := 0, length := 1, seqNo := 2, flag := 0 }
  refine ⟨hA, ?_⟩
  rw [hB]
  decide

/-!  Last-writer-wins over a flat list of extent writes (claim C1). -/

theorem getSec_applySectorWrites_nocover (apps : List (Extent × Int × Int)) :
    ∀ (secs : List SectorMetadata) (s : Int), 0 ≤ s →
    (∀ x ∈ apps, 0 ≤ x.1.sector ∧ 0 ≤ x.1.length ∧
      x.1.sector + x.1.length ≤ (secs.length : Int)) →
    (∀ x ∈ apps, ¬ covers x s) →
    getSec (applySectorWrites secs apps) s = getSec secs s := by
  induction apps with
  | nil => intro secs s _ _ _; rfl
  | cons x apps ih =>
    intro secs s hs hb hnc
    have hbx := hb x (List.mem_cons_self x apps)
    have hstep : getSec (extentSectors secs x.1 x.2.1 x.2.2) s = getSec secs s := by
      rw [getSec_extentSectors secs x.1 x.2.1 x.2.2 s hbx.1 hbx.2.1 hbx.2.2 hs]
      rw [if_neg (fun h => hnc x (List.mem_cons_self x apps) ⟨h.1, h.2.1⟩)]
    have hlen : (extentSectors secs x.1 x.2.1 x.2.2).length = secs.length :=
      length_extentSectors secs x.1 x.2.1 x.2.2
    have := ih (extentSectors secs x.1 x.2.1 x.2.2) s hs
      (fun y hy => by rw [hlen]; exact hb y (List.mem_cons_of_mem x hy))
      (fun y hy => hnc y (List.mem_cons_of_mem x hy))
    rw [applySectorWrites, List.foldl_cons, ← applySectorWrites, this, hstep]

theorem seqNo_applySectorWrites_le (apps : List (Extent × Int × Int)) :
    ∀ (secs : List SectorMetadata) (s B : Int), 0 ≤ s →
    (∀ x ∈ apps, 0 ≤ x.1.sector ∧ 0 ≤ x.1.length ∧
      x.1.sector + x.1.length ≤ (secs.length : Int)) →
    (getSec secs s).seqNo ≤ B →
    (∀ x ∈ apps, x.1.seqNo ≤ B) →
    (getSec (applySectorWrites secs apps) s).seqNo ≤ B := by
  induction apps with
  | nil => intro secs s B _ _ h _; exact h
  | cons x apps ih =>
    intro secs s B hs hb hinit hall
    have hbx := hb x (List.mem_cons_self x apps)
    have hlen : (extentSectors secs x.1 x.2.1 x.2.2).length = secs.length :=
      length_extentSectors secs x.1 x.2.1 x.2.2
    have hstep : (getSec (extentSectors secs x.1 x.2.1 x.2.2) s).seqNo ≤ B := by
      rw [getSec_extentSectors secs x.1 x.2.1 x.2.2 s hbx.1 hbx.2.1 hbx.2.2 hs]
      by_cases h : x.1.sector ≤ s ∧ s < x.1.sector + x.1.length ∧
          (getSec secs s).seqNo ≤ x.1.seqNo
      · rw [if_pos h]
        exact hall x (List.mem_cons_self x apps)
      · rw [if_neg h]
        exact hinit
    have := ih (extentSectors secs x.1 x.2.1 x.2.2) s B hs
      (fun y hy => by rw [hlen]; exact hb y (List.mem_cons_of_mem x hy))
      hstep
      (fun y hy => hall y (List.mem_cons_of_mem x hy))
    rw [applySectorWrites, List.foldl_cons, ← applySectorWrites]
    exact this

theorem length_applySectorWrites (apps : List (Extent × Int × Int)) :
    ∀ (secs : List SectorMetadata),
    (applySectorWrites secs apps).length = secs.length := by
  induction apps with
  | nil => intro secs; rfl
  | cons x apps ih =>
    intro secs
    rw [applySectorWrites, List.foldl_cons, ← applySectorWrites, ih,
      length_extentSectors]

theorem getSec_applySectorWrites_lww (l₁ l₂ : List (Extent × Int × Int))
    (x : Extent × Int × Int) (secs : List SectorMetadata) (s : Int) (hs : 0 ≤ s)
    (hb : ∀ y ∈ l₁ ++ x :: l₂, 0 ≤ y.1.sector ∧ 0 ≤ y.1.length ∧
      y.1.sector + y.1.length ≤ (secs.length : Int))
    (hmono : (l₁ ++ x :: l₂).Pairwise (fun a b => a.1.seqNo ≤ b.1.seqNo))
    (hinit : ∀ y ∈ l₁ ++ x :: l₂, (getSec secs s).seqNo ≤ y.1.seqNo)
    (hcov : covers x s) (hlast : ∀ y ∈ l₂, ¬ covers y s) :
    getSec (applySectorWrites secs (l₁ ++ x :: l₂)) s
      = { sector := x.2.1 + (s - x.1.sector), key := x.2.2,
          seqNo := x.1.seqNo, flag := x.1.flag } := by
  rw [applySectorWrites_append secs l₁ (x :: l₂)]
  set secs₁ := applySectorWrites secs l₁ with hsecs₁
  have hlen₁ : secs₁.length = secs.length := length_applySectorWrites l₁ secs
  have hb₁ : ∀ y ∈ l₁, 0 ≤ y.1.sector ∧ 0 ≤ y.1.length ∧
      y.1.sector + y.1.length ≤ (secs.length : Int) :=
    fun y hy => hb y (List.mem_append_left _ hy)
  have hseq₁ : (getSec secs₁ s).seqNo ≤ x.1.seqNo := by
    apply seqNo_applySectorWrites_le l₁ secs s x.1.seqNo hs hb₁
    · exact hinit x (List.mem_append_right _ (List.mem_cons_self x l₂))
    · intro y hy
      have := (List.pairwise_append.mp hmono).2.2 y hy x (List.mem_cons_self x l₂)
      exact this
  have hbx := hb x (List.mem_append_right _ (List.mem_cons_self x l₂))
  have hstep : getSec (extentSectors secs₁ x.1 x.2.1 x.2.2) s
      = { sector := x.2.1 + (s - x.1.sector), key := x.2.2,
          seqNo := x.1.seqNo, flag := x.1.flag } := by
    rw [getSec_extentSectors secs₁ x.1 x.2.1 x.2.2 s hbx.1 hbx.2.1
      (by rw [hlen₁]; exact hbx.2.2) hs]
    rw [if_pos ⟨hcov.1, hcov.2, hseq₁⟩]
  have hlen₂ : (extentSectors secs₁ x.1 x.2.1 x.2.2).length = secs.length := by
    rw [length_extentSectors, hlen₁]
  have htail : getSec (applySectorWrites (extentSectors secs₁ x.1 x.2.1 x.2.2) l₂) s
      = getSec (extentSectors secs₁ x.1 x.2.1 x.2.2) s := by
    apply getSec_applySectorWrites_nocover l₂ _ s hs
    · intro y hy
      rw [hlen₂]
      exact hb y (List.mem_append_right _ (List.mem_cons_of_mem x hy))
    · exact hlast
  calc getSec (applySectorWrites secs₁ (x :: l₂)) s
      = getSec (applySectorWrites (extentSectors secs₁ x.1 x.2.1 x.2.2) l₂) s := rfl
    _ = _ := by rw [htail, hstep]

/-!  Claim C1: last-writer-wins across a monotone sequence of updates. -/

theorem getD_replicate_lt {α : Type} (a d : α) :
    ∀ (n m : Nat), m < n → (List.replicate n a).getD m d = a
  | 0, m, h => absurd h (Nat.not_lt_zero m)
  | n + 1, 0, _ => rfl
  | n + 1, m + 1, h => getD_replicate_lt a d n m (by omega)

theorem getSec_New (n : Nat) (s : Int) (hlt : s.toNat < n) :
    getSec (SectorMap.New n).sectors s
      = { sector := 0, key := notMappedKey, seqNo := 0, flag := 0 } := by
  unfold SectorMap.New getSec
  exact getD_replicate_lt _ _ n s.toNat hlt

theorem take_one_drop (l : List SectorMetadata) :
    ∀ (n : Nat), n < l.length → (l.drop n).take 1 = [l.getD n default] := by
  induction l with
  | nil => intro n h; simp at h
  | cons a l ih =>
    intro n h
    cases n with
    | zero => rfl
    | succ n =>
      rw [List.drop_succ_cons]
      rw [ih n (by simpa using h)]
      rfl

theorem lookup_single (m : SectorMap) (s : Int)
    (hlt : s.toNat < m.sectors.length) :
    SectorMap.Lookup m s 1
      = [{ sector := (getSec m.sectors s).sector, length := 1,
           key := (getSec m.sectors s).key }] := by
  unfold SectorMap.Lookup
  rw [show ((1 : Int)).toNat = 1 from rfl, take_one_drop m.sectors s.toNat hlt]
  rfl

/-- C1: starting from a fresh map, apply any sequence of `Update` calls
whose flattened extents carry monotonically nondecreasing, nonnegative
`seqNo` values and stay in range.  Every sector covered by at least one
extent ends up with the entry recorded by the last extent that covers it
(its key, its in-object position, its `seqNo` and flag), and a subsequent
single-sector `Lookup` returns exactly one part pointing at that
last-written copy. -/
theorem sectormap_last_writer_wins (n : Nat) (us : List (List Extent × Int × Int))
    (s : Int) (l₁ l₂ : List (Extent × Int × Int)) (x : Extent × Int × Int)
    (hflat : flattenUpdates us = l₁ ++ x :: l₂)
    (hb : ∀ y ∈ flattenUpdates us, 0 ≤ y.1.sector ∧ 0 ≤ y.1.length ∧
      y.1.sector + y.1.length ≤ (n : Int))
    (hmono : ((flattenUpdates us).map (fun y => y.1.seqNo)).Pairwise (· ≤ ·))
    (hpos : ∀ y ∈ flattenUpdates us, 0 ≤ y.1.seqNo)
    (hcov : covers x s) (hlast : ∀ y ∈ l₂, ¬ covers y s) :
    getSec (multiUpdate (SectorMap.New n) us).sectors s
      = { sector := x.2.1 + (s - x.1.sector), key := x.2.2,
          seqNo := x.1.seqNo, flag := x.1.flag } ∧
    SectorMap.Lookup (multiUpdate (SectorMap.New n) us) s 1
      = [{ sector := x.2.1 + (s - x.1.sector), length := 1, key := x.2.2 }] := by
  have hxmem : x ∈ flattenUpdates us := by
    rw [hflat]
    exact List.mem_append_right _ (List.mem_cons_self x l₂)
  have hbx := hb x hxmem
  have hs : 0 ≤ s := le_trans hbx.1 hcov.1
  have hsn : s < (n : Int) := lt_of_lt_of_le hcov.2 hbx.2.2
  have hlenNew : ((SectorMap.New n).sectors.length : Int) = (n : Int) := by
    simp [SectorMap.New]
  have hinit : ∀ y ∈ flattenUpdates us,
      (getSec (SectorMap.New n).sectors s).seqNo ≤ y.1.seqNo := by
    intro y hy
    rw [getSec_New n s (by omega)]
    exact hpos y hy
  have hmono' : (flattenUpdates us).Pairwise (fun a b => a.1.seqNo ≤ b.1.seqNo) :=
    (List.pairwise_map).mp hmono
  have hentry : getSec (multiUpdate (SectorMap.New n) us).sectors s
      = { sector := x.2.1 + (s - x.1.sector), key := x.2.2,
          seqNo := x.1.seqNo, flag := x.1.flag } := by
    rw [sectors_multiUpdate us (SectorMap.New n), hflat]
    apply getSec_applySectorWrites_lww l₁ l₂ x (SectorMap.New n).sectors s hs
    · intro y hy
      rw [hlenNew]
      exact hb y (hflat ▸ hy)
    · rw [← hflat]; exact hmono'
    · intro y hy
      exact hinit y (hflat ▸ hy)
    · exact hcov
    · exact hlast
  refine ⟨hentry, ?_⟩
  have hlenM : (multiUpdate (SectorMap.New n) us).sectors.length
      = (SectorMap.New n).sectors.length := by
    rw [sectors_multiUpdate us (SectorMap.New n)]
    exact length_applySectorWrites (flattenUpdates us) (SectorMap.New n).sectors
  rw [lookup_single _ s (by rw [hlenM]; simp [SectorMap.New]; omega), hentry]

theorem sectormap_last_writer_wins_witness :
    getSec (multiUpdate (SectorMap.New 2)
        [([{ sector := 0, length := 1, seqNo := 1, flag := 0 }], 8, 0),
         ([{ sector := 0, length := 1, seqNo := 2, flag := 0 }], 8, 1)]).sectors 0
      = { sector := 8, key := 1, seqNo := 2, flag := 0 } ∧
    SectorMap.Lookup (multiUpdate (SectorMap.New 2)
        [([{ sector := 0, length := 1, seqNo := 1, flag := 0 }], 8, 0),
         ([{ sector := 0, length := 1, seqNo := 2, flag := 0 }], 8, 1)]) 0 1
      = [{ sector := 8, length := 1, key := 1 }] := by
  have h := sectormap_last_writer_wins 2
    [([{ sector := 0, length := 1, seqNo := 1, flag := 0 }], 8, 0),
     ([{ sector := 0, length := 1, seqNo := 2, flag := 0 }], 8, 1)] 0
    [({ sector := 0, length := 1, seqNo := 1, flag := 0 }, 8, 0)] []
    ({ sector := 0, length := 1, seqNo := 2, flag := 0 }, 8, 1)
    (by decide) (by decide) (by decide) (by decide) (by decide) (by decide)
  simpa using h

/-!  Key-count lemmas for the utilization inventory (claim C4). -/

theorem keyCount_cons (x : SectorMetadata) (l : List SectorMetadata) (k : Int) :
    keyCount (x :: l) k = (if x.key = k then 1 else 0) + keyCount l k := by
  unfold keyCount
  rw [List.filter_cons]
  by_cases h : x.key = k
  · simp [h]
    omega
  · simp [h]

theorem keyCount_set (secs : List SectorMetadata) :
    ∀ (n : Nat) (v : SectorMetadata) (k : Int), n < secs.length →
    keyCount (secs.set n v) k + (if (secs.getD n default).key = k then 1 else 0)
      = keyCount secs k + (if v.key = k then 1 else 0) := by
  induction secs with
  | nil => intro n v k h; simp at h
  | cons a secs ih =>
    intro n v k h
    cases n with
    | zero =>
      rw [List.set_cons_zero, keyCount_cons, keyCount_cons]
      have : (((a :: secs).getD 0 default)).key = a.key := rfl
      rw [this]
      omega
    | succ n =>
      rw [List.set_cons_succ, keyCount_cons, keyCount_cons]
      have : (((a :: secs).getD (n + 1) default)).key = (secs.getD n default).key := rfl
      rw [this]
      have := ih n v k (by simpa using h)
      omega

theorem keyCount_pos_of_mem (secs : List SectorMetadata) (x : SectorMetadata)
    (hx : x ∈ secs) : 0 < keyCount secs x.key := by
  unfold keyCount
  have : x ∈ secs.filter (fun y => y.key == x.key) :=
    List.mem_filter.mpr ⟨hx, by simp⟩
  exact List.length_pos.mpr (fun h => by rw [h] at this; simp at this)

theorem keyCount_zero_no_mem (secs : List SectorMetadata) (k : Int)
    (h : keyCount secs k = 0) : ∀ x ∈ secs, x.key ≠ k := by
  intro x hx hk
  have := keyCount_pos_of_mem secs x hx
  rw [hk] at this
  omega

theorem getD_mem {α : Type} : ∀ (l : List α) (n : Nat) (d : α), n < l.length →
    l.getD n d ∈ l
  | a :: l, 0, d, _ => List.mem_cons_self a l
  | a :: l, n + 1, d, h =>
    List.mem_cons_of_mem a (getD_mem l n d (by simpa using h))
  | [], n, d, h => absurd h (by simp)

theorem mem_iff_mcontains_mget (u : List (Int × Int)) (hnd : keysNodup u) (k v : Int) :
    (k, v) ∈ u ↔ mcontains u k = true ∧ mget u k = v := by
  constructor
  · intro h
    refine ⟨(mcontains_iff_mem_keys u k).mpr (List.mem_map.mpr ⟨(k, v), h, rfl⟩), ?_⟩
    exact mget_eq_of_mem u k v hnd h
  · rintro ⟨hc, rfl⟩
    exact mem_of_mcontains u k hc

/-!  Containment tracking through `updateUtilization`. -/

theorem keysNodup_updateUtilization (m : SectorMap) (key : Int) (s : SectorMetadata)
    (h : keysNodup m.objUtilizations) :
    keysNodup (SectorMap.updateUtilization m key s).objUtilizations := by
  unfold SectorMap.updateUtilization
  by_cases h1 : s.key ≠ notMappedKey
  · simp only [if_pos h1]
    by_cases h2 : mget (mset (mset m.objUtilizations key (mget m.objUtilizations key + 1))
        s.key (mget (mset m.objUtilizations key (mget m.objUtilizations key + 1)) s.key - 1))
        s.key = 0
    · simp only [if_pos h2]
      exact keysNodup_mdel _ _ (keysNodup_mset _ _ _ (keysNodup_mset _ _ _ h))
    · simp only [if_neg h2]
      exact keysNodup_mset _ _ _ (keysNodup_mset _ _ _ h)
  · simp only [if_neg h1]
    exact keysNodup_mset _ _ _ h

theorem mcontains_updateUtilization_shrink (m : SectorMap) (key : Int) (s : SectorMetadata)
    (k : Int) (h : mcontains (SectorMap.updateUtilization m key s).objUtilizations k = true) :
    k = key ∨ (s.key ≠ notMappedKey ∧ k = s.key) ∨ mcontains m.objUtilizations k = true := by
  by_cases hk : k = key
  · exact Or.inl hk
  by_cases hsk : s.key ≠ notMappedKey ∧ k = s.key
  · exact Or.inr (Or.inl hsk)
  refine Or.inr (Or.inr ?_)
  unfold SectorMap.updateUtilization at h
  by_cases h1 : s.key ≠ notMappedKey
  · simp only [if_pos h1] at h
    have hks : k ≠ s.key := fun hh => hsk ⟨h1, hh⟩
    by_cases h2 : mget (mset (mset m.objUtilizations key (mget m.objUtilizations key + 1))
        s.key (mget (mset m.objUtilizations key (mget m.objUtilizations key + 1)) s.key - 1))
        s.key = 0
    · simp only [if_pos h2] at h
      rw [mcontains_mdel_ne _ _ _ (fun hh => hks hh.symm),
        mcontains_mset_ne _ _ _ _ (fun hh => hks hh.symm),
        mcontains_mset_ne _ _ _ _ (fun hh => hk hh.symm)] at h
      exact h
    · simp only [if_neg h2] at h
      rw [mcontains_mset_ne _ _ _ _ (fun hh => hks hh.symm),
        mcontains_mset_ne _ _ _ _ (fun hh => hk hh.symm)] at h
      exact h
  · simp only [if_neg h1] at h
    rw [mcontains_mset_ne _ _ _ _ (fun hh => hk hh.symm)] at h
    exact h

theorem mcontains_updateUtilization_key (m : SectorMap) (key : Int) (s : SectorMetadata)
    (hne : s.key = key → mget m.objUtilizations key ≠ 0) :
    mcontains (SectorMap.updateUtilization m key s).objUtilizations key = true := by
  unfold SectorMap.updateUtilization
  by_cases h1 : s.key ≠ notMappedKey
  · simp only [if_pos h1]
    by_cases hsk : s.key = key
    · have hmz : mget (mset (mset m.objUtilizations key (mget m.objUtilizations key + 1))
          s.key (mget (mset m.objUtilizations key (mget m.objUtilizations key + 1)) s.key - 1))
          s.key ≠ 0 := by
        rw [hsk, mget_mset_self, mget_mset_self]
        have := hne hsk
        omega
      simp only [if_neg hmz]
      rw [hsk]
      exact mcontains_mset_self _ _ _
    · by_cases h2 : mget (mset (mset m.objUtilizations key (mget m.objUtilizations key + 1))
          s.key (mget (mset m.objUtilizations key (mget m.objUtilizations key + 1)) s.key - 1))
          s.key = 0
      · simp only [if_pos h2]
        rw [mcontains_mdel_ne _ _ _ (fun hh => hsk hh),
          mcontains_mset_ne _ _ _ _ hsk]
        exact mcontains_mset_self _ _ _
      · simp only [if_neg h2]
        rw [mcontains_mset_ne _ _ _ _ hsk]
        exact mcontains_mset_self _ _ _
  · simp only [if_neg h1]
    exact mcontains_mset_self _ _ _

theorem mcontains_updateUtilization_other (m : SectorMap) (key : Int) (s : SectorMetadata)
    (k : Int) (hk : k ≠ key) (hks : k ≠ s.key)
    (h : mcontains m.objUtilizations k = true) :
    mcontains (SectorMap.updateUtilization m key s).objUtilizations k = true := by
  unfold SectorMap.updateUtilization
  by_cases h1 : s.key ≠ notMappedKey
  · simp only [if_pos h1]
    by_cases h2 : mget (mset (mset m.objUtilizations key (mget m.objUtilizations key + 1))
        s.key (mget (mset m.objUtilizations key (mget m.objUtilizations key + 1)) s.key - 1))
        s.key = 0
    · simp only [if_pos h2]
      rw [mcontains_mdel_ne _ _ _ (fun hh => hks hh.symm),
        mcontains_mset_ne _ _ _ _ (fun hh => hks hh.symm),
        mcontains_mset_ne _ _ _ _ (fun hh => hk hh.symm)]
      exact h
    · simp only [if_neg h2]
      rw [mcontains_mset_ne _ _ _ _ (fun hh => hks hh.symm),
        mcontains_mset_ne _ _ _ _ (fun hh => hk hh.symm)]
      exact h
  · simp only [if_neg h1]
    rw [mcontains_mset_ne _ _ _ _ (fun hh => hk hh.symm)]
    exact h

/-!  Preservation of the utilization inventory by one replaced sector. -/

theorem length_updateSector (m : SectorMap) (key i t : Int) (e : Extent) :
    (SectorMap.updateSector m key i t e).sectors.length = m.sectors.length := by
  rw [sectors_updateSector]
  exact length_setSec m.sectors i _

theorem utilMid_updateSector (m : SectorMap) (key i t : Int) (e : Extent)
    (hmid : UtilMid m key) (hib : i.toNat < m.sectors.length) :
    UtilMid (SectorMap.updateSector m key i t e) key := by
  obtain ⟨hnd, hinv, hcomp, hkc, hkey⟩ := hmid
  have holdmem : getSec m.sectors i ∈ m.sectors :=
    getD_mem m.sectors i.toNat default hib
  have hval : ∀ k, mcontains m.objUtilizations k = true →
      k ≠ notMappedKey ∧ mget m.objUtilizations k = (keyCount m.sectors k : Int) ∧
        (k ≠ key → 0 < mget m.objUtilizations k) := by
    intro k hc
    have hmem := mem_of_mcontains m.objUtilizations k hc
    exact hinv _ hmem
  have hck : mget m.objUtilizations key = (keyCount m.sectors key : Int) :=
    (hval key hkc).2.1
  have hkcset : ∀ k, keyCount (SectorMap.updateSector m key i t e).sectors k
        + (if (getSec m.sectors i).key = k then 1 else 0)
      = keyCount m.sectors k + (if key = k then 1 else 0) := by
    intro k
    rw [sectors_updateSector]
    exact keyCount_set m.sectors i.toNat _ k hib
  have hmg : ∀ k, mget (SectorMap.updateSector m key i t e).objUtilizations k
      = mget m.objUtilizations k + (if k = key then 1 else 0)
        - (if (getSec m.sectors i).key ≠ notMappedKey ∧ k = (getSec m.sectors i).key
           then 1 else 0) := by
    intro k
    rw [objUtilizations_updateSector]
    exact mget_updateUtilization m key (getSec m.sectors i) k
  have hnd' : keysNodup (SectorMap.updateSector m key i t e).objUtilizations := by
    rw [objUtilizations_updateSector]
    exact keysNodup_updateUtilization m key (getSec m.sectors i) hnd
  have hkeyne : (getSec m.sectors i).key = key → mget m.objUtilizations key ≠ 0 := by
    intro ho
    have hpos := keyCount_pos_of_mem m.sectors (getSec m.sectors i) holdmem
    rw [ho] at hpos
    rw [hck]
    omega
  have hkc' : mcontains (SectorMap.updateSector m key i t e).objUtilizations key = true := by
    rw [objUtilizations_updateSector]
    exact mcontains_updateUtilization_key m key (getSec m.sectors i) hkeyne
  have hsurvival : (getSec m.sectors i).key ≠ notMappedKey →
      (getSec m.sectors i).key ≠ key →
      mcontains (SectorMap.updateSector m key i t e).objUtilizations
        (getSec m.sectors i).key = true →
      mget m.objUtilizations (getSec m.sectors i).key - 1 ≠ 0 := by
    intro ho hok hc hzero
    have hprev := (updateUtilization_prevKey m key (getSec m.sectors i) ho).1
    have hc0 : mget m.objUtilizations (getSec m.sectors i).key
        + (if key = (getSec m.sectors i).key then 1 else 0) - 1 = 0 := by
      rw [if_neg (show ¬(key = (getSec m.sectors i).key) from fun h => hok h.symm)]
      omega
    have hfalse := (hprev hc0).1
    rw [objUtilizations_updateSector] at hc
    rw [hfalse] at hc
    exact Bool.false_ne_true hc
  refine ⟨hnd', ?_, ?_, hkc', hkey⟩
  · -- inventory: every counter equals the key usage in the new array
    rintro ⟨k, v⟩ hp
    obtain ⟨hc', hv'⟩ := (mem_iff_mcontains_mget _ hnd' k v).mp hp
    have hshrink : k = key ∨ ((getSec m.sectors i).key ≠ notMappedKey ∧
        k = (getSec m.sectors i).key) ∨ mcontains m.objUtilizations k = true := by
      rw [objUtilizations_updateSector] at hc'
      exact mcontains_updateUtilization_shrink m key (getSec m.sectors i) k hc'
    have hkne : k ≠ notMappedKey := by
      rcases hshrink with rfl | ⟨ho, rfl⟩ | hc
      · exact hkey
      · exact ho
      · exact (hval k hc).1
    have hbase : mget m.objUtilizations k = (keyCount m.sectors k : Int) := by
      rcases hshrink with rfl | ⟨ho, rfl⟩ | hc
      · exact hck
      · exact (hval _ (hcomp (getSec m.sectors i) holdmem ho)).2.1
      · exact (hval k hc).2.1
    have hveq : v = (keyCount (SectorMap.updateSector m key i t e).sectors k : Int) := by
      have hset := hkcset k
      rw [← hv', hmg k, hbase]
      by_cases hk1 : k = key
      · rw [if_pos hk1]
        rw [if_pos hk1.symm] at hset
        by_cases hk2 : k = (getSec m.sectors i).key
        · have ho : (getSec m.sectors i).key ≠ notMappedKey := by
            rw [← hk2]; exact hkne
          rw [if_pos (show (getSec m.sectors i).key ≠ notMappedKey ∧
              k = (getSec m.sectors i).key from ⟨ho, hk2⟩)]
          rw [if_pos hk2.symm] at hset
          omega
        · rw [if_neg (show ¬((getSec m.sectors i).key ≠ notMappedKey ∧
              k = (getSec m.sectors i).key) from fun h => hk2 h.2)]
          rw [if_neg (show ¬((getSec m.sectors i).key = k) from fun h => hk2 h.symm)] at hset
          omega
      · rw [if_neg hk1]
        rw [if_neg (show ¬(key = k) from fun h => hk1 h.symm)] at hset
        by_cases hk2 : k = (getSec m.sectors i).key
        · have ho : (getSec m.sectors i).key ≠ notMappedKey := by
            rw [← hk2]; exact hkne
          rw [if_pos (show (getSec m.sectors i).key ≠ notMappedKey ∧
              k = (getSec m.sectors i).key from ⟨ho, hk2⟩)]
          rw [if_pos hk2.symm] at hset
          omega
        · rw [if_neg (show ¬((getSec m.sectors i).key ≠ notMappedKey ∧
              k = (getSec m.sectors i).key) from fun h => hk2 h.2)]
          rw [if_neg (show ¬((getSec m.sectors i).key = k) from fun h => hk2 h.symm)] at hset
          omega
    refine ⟨hkne, hveq, ?_⟩
    intro hknek
    by_cases hk2 : (getSec m.sectors i).key ≠ notMappedKey ∧ k = (getSec m.sectors i).key
    · obtain ⟨ho, hkk⟩ := hk2
      have hok : (getSec m.sectors i).key ≠ key := by
        rw [← hkk]; exact hknek
      have hnz : mget m.objUtilizations (getSec m.sectors i).key - 1 ≠ 0 := by
        apply hsurvival ho hok
        rw [← hkk]
        exact hc'
      have hpos : 0 < mget m.objUtilizations (getSec m.sectors i).key :=
        (hval _ (hcomp (getSec m.sectors i) holdmem ho)).2.2 hok
      rw [← hv', hmg k, if_neg hknek,
        if_pos (show (getSec m.sectors i).key ≠ notMappedKey ∧
          k = (getSec m.sectors i).key from ⟨ho, hkk⟩), hkk]
      omega
    · have hc : mcontains m.objUtilizations k = true := by
        rcases hshrink with rfl | h | hc
        · exact absurd rfl hknek
        · exact absurd h hk2
        · exact hc
      have := (hval k hc).2.2 hknek
      rw [← hv', hmg k, if_neg hknek, if_neg hk2]
      omega
  · -- completeness over the new sector array
    intro x hx hxk
    have hx' : x ∈ m.sectors
        ∨ x = { sector := t, key := key, seqNo := e.seqNo, flag := e.flag } := by
      rw [sectors_updateSector] at hx
      exact List.mem_or_eq_of_mem_set hx
    rcases hx' with hxm | rfl
    · by_cases hxkey : x.key = key
      · rw [hxkey]
        exact hkc'
      · by_cases hxo : x.key = (getSec m.sectors i).key
        · have ho : (getSec m.sectors i).key ≠ notMappedKey := by
            rw [← hxo]; exact hxk
          have hok : (getSec m.sectors i).key ≠ key := by
            rw [← hxo]; exact hxkey
          have hcold := hcomp (getSec m.sectors i) holdmem ho
          by_cases hdel : mget m.objUtilizations (getSec m.sectors i).key - 1 = 0
          · exfalso
            have hval_old := (hval _ hcold).2.1
            have hset := hkcset (getSec m.sectors i).key
            rw [if_pos rfl,
              if_neg (show ¬(key = (getSec m.sectors i).key) from fun h => hok h.symm)] at hset
            have h0 : keyCount (SectorMap.updateSector m key i t e).sectors
                (getSec m.sectors i).key = 0 := by omega
            exact keyCount_zero_no_mem _ _ h0 x hx hxo
          · have hprev := (updateUtilization_prevKey m key (getSec m.sectors i) ho).2
            have hnz : mget m.objUtilizations (getSec m.sectors i).key
                + (if key = (getSec m.sectors i).key then 1 else 0) - 1 ≠ 0 := by
              rw [if_neg (show ¬(key = (getSec m.sectors i).key) from fun h => hok h.symm)]
              omega
            rw [hxo, objUtilizations_updateSector]
            exact (hprev hnz).2
        · rw [objUtilizations_updateSector]
          exact mcontains_updateUtilization_other m key (getSec m.sectors i) x.key
            hxkey hxo (hcomp x hxm hxk)
    · exact hkc'

/-!  Preservation of the inventory through the update loop and `Update`. -/

theorem length_updateExtentLoop (e : Extent) (key : Int) (fuel : Nat) :
    ∀ (m : SectorMap) (i t : Int),
    (SectorMap.updateExtentLoop e key fuel m i t).sectors.length = m.sectors.length := by
  intro m i t
  rw [sectors_updateExtentLoop]
  exact length_extentSectorsLoop e key fuel m.sectors i t

theorem utilMid_updateExtentLoop (e : Extent) (key : Int) (fuel : Nat) :
    ∀ (m : SectorMap) (i t : Int), UtilMid m key → 0 ≤ i →
    i + (fuel : Int) ≤ (m.sectors.length : Int) →
    UtilMid (SectorMap.updateExtentLoop e key fuel m i t) key := by
  induction fuel with
  | zero => intro m i t h _ _; exact h
  | succ fuel ih =>
    intro m i t h hi hb
    rw [SectorMap.updateExtentLoop]
    by_cases hc : (getSec m.sectors i).seqNo ≤ e.seqNo
    · simp only [if_pos hc]
      have hib : i.toNat < m.sectors.length := by push_cast at hb; omega
      have h' := utilMid_updateSector m key i t e h hib
      apply ih _ (i + 1) (t + 1) h' (by omega)
      rw [length_updateSector]
      push_cast at hb ⊢
      omega
    · simp only [if_neg hc]
      exact ih m (i + 1) (t + 1) h (by omega) (by push_cast at hb ⊢; omega)

theorem length_updateExtent (m : SectorMap) (e : Extent) (start key : Int) :
    (SectorMap.updateExtent m e start key).sectors.length = m.sectors.length :=
  length_updateExtentLoop e key e.length.toNat m e.sector start

theorem utilMid_updateExtent (m : SectorMap) (e : Extent) (start key : Int)
    (h : UtilMid m key) (h1 : 0 ≤ e.sector) (h2 : 0 ≤ e.length)
    (h3 : e.sector + e.length ≤ (m.sectors.length : Int)) :
    UtilMid (SectorMap.updateExtent m e start key) key := by
  apply utilMid_updateExtentLoop e key e.length.toNat m e.sector start h h1
  rw [Int.toNat_of_nonneg h2]
  exact h3

theorem utilMid_update_fold (key : Int) (extents : List Extent) :
    ∀ (m : SectorMap) (start : Int), UtilMid m key →
    (∀ e ∈ extents, 0 ≤ e.sector ∧ 0 ≤ e.length ∧
      e.sector + e.length ≤ (m.sectors.length : Int)) →
    UtilMid ((extents.foldl
      (fun acc e => (SectorMap.updateExtent acc.1 e acc.2 key, acc.2 + e.length))
      (m, start)).1) key := by
  induction extents with
  | nil => intro m start h _; exact h
  | cons e extents ih =>
    intro m start h hb
    rw [List.foldl_cons]
    have hbe := hb e (List.mem_cons_self e extents)
    have h' := utilMid_updateExtent m e start key h hbe.1 hbe.2.1 hbe.2.2
    apply ih _ (start + e.length) h'
    intro e' he'
    rw [length_updateExtent]
    exact hb e' (List.mem_cons_of_mem e he')

theorem utilMid_init (m : SectorMap) (key : Int) (hok : UtilOk m)
    (hfresh : mcontains m.objUtilizations key = false) (hkey : key ≠ notMappedKey)
    (hkc : keyCount m.sectors key = 0) :
    UtilMid { m with objUtilizations := mset m.objUtilizations key 0 } key := by
  obtain ⟨hnd, hinv, hcomp⟩ := hok
  refine ⟨keysNodup_mset _ _ _ hnd, ?_, ?_, mcontains_mset_self _ _ _, hkey⟩
  · rintro ⟨k, v⟩ hp
    rcases (mem_mset _ _ _ _).mp hp with heq | ⟨hm, hne⟩
    · obtain ⟨rfl, rfl⟩ := Prod.mk.injEq k v key 0 ▸ heq
      exact ⟨hkey, by rw [hkc]; simp, fun h => absurd rfl h⟩
    · have := hinv _ hm
      exact ⟨this.1, this.2.1, fun _ => this.2.2⟩
  · intro x hx hxk
    by_cases h : x.key = key
    · rw [h]
      exact mcontains_mset_self _ _ _
    · rw [mcontains_mset_ne _ _ _ _ (fun hh => h hh.symm)]
      exact hcomp x hx hxk

/-- C4 core: a fresh-key `Update` preserves the utilization inventory. -/
theorem utilOk_Update (m : SectorMap) (extents : List Extent) (start key : Int)
    (hok : UtilOk m) (hfresh : mcontains m.objUtilizations key = false)
    (hkey : key ≠ notMappedKey) (hkc : keyCount m.sectors key = 0)
    (hb : ∀ e ∈ extents, 0 ≤ e.sector ∧ 0 ≤ e.length ∧
      e.sector + e.length ≤ (m.sectors.length : Int)) :
    UtilOk (SectorMap.Update m extents start key) := by
  have hmid0 := utilMid_init m key hok hfresh hkey hkc
  have hmid1 := utilMid_update_fold key extents
    { m with objUtilizations := mset m.objUtilizations key 0 } start hmid0 hb
  unfold SectorMap.Update
  simp only []
  obtain ⟨hnd1, hinv1, hcomp1, hkc1, hkey1⟩ := hmid1
  by_cases hz : mget ((extents.foldl
      (fun acc e => (SectorMap.updateExtent acc.1 e acc.2 key, acc.2 + e.length))
      ({ m with objUtilizations := mset m.objUtilizations key 0 }, start)).1).objUtilizations
      key = 0
  · rw [if_pos hz]
    set m1 := (extents.foldl
      (fun acc e => (SectorMap.updateExtent acc.1 e acc.2 key, acc.2 + e.length))
      ({ m with objUtilizations := mset m.objUtilizations key 0 }, start)).1 with hm1
    have hkcz : keyCount m1.sectors key = 0 := by
      have hmem := mem_of_mcontains m1.objUtilizations key hkc1
      have h2 : mget m1.objUtilizations key = (keyCount m1.sectors key : Int) :=
        (hinv1 _ hmem).2.1
      rw [hz] at h2
      omega
    refine ⟨keysNodup_mdel _ _ hnd1, ?_, ?_⟩
    · rintro ⟨k, v⟩ hp
      obtain ⟨hm, hne⟩ := (mem_mdel _ _ _).mp hp
      have := hinv1 _ hm
      exact ⟨this.1, this.2.1, this.2.2 hne⟩
    · intro x hx hxk
      by_cases h : x.key = key
      · exact absurd h (keyCount_zero_no_mem m1.sectors key hkcz x hx)
      · rw [mcontains_mdel_ne _ _ _ (fun hh => h hh.symm)]
        exact hcomp1 x hx hxk
  · rw [if_neg hz]
    set m1 := (extents.foldl
      (fun acc e => (SectorMap.updateExtent acc.1 e acc.2 key, acc.2 + e.length))
      ({ m with objUtilizations := mset m.objUtilizations key 0 }, start)).1 with hm1
    refine ⟨hnd1, ?_, hcomp1⟩
    rintro ⟨k, v⟩ hp
    have := hinv1 _ hp
    refine ⟨this.1, this.2.1, ?_⟩
    by_cases h : k = key
    · have hmv : mget m1.objUtilizations k = v := mget_eq_of_mem _ _ _ hnd1 hp
      have hveq : v = (keyCount m1.sectors k : Int) := (hinv1 _ hp).2.1
      have hzz : mget m1.objUtilizations key ≠ 0 := hz
      rw [← h] at hzz
      show 0 < v
      have hge : (0 : Int) ≤ (keyCount m1.sectors k : Int) := by positivity
      omega
    · exact this.2.2 h

/-!  The accounting identity behind claim C4. -/

theorem msum_cons (a b : Int) (u : List (Int × Int)) :
    msum ((a, b) :: u) = b + msum u := by
  simp [msum]

theorem mcontains_cons_or (a b k : Int) (u : List (Int × Int)) :
    mcontains ((a, b) :: u) k = ((a == k) || mcontains u k) := by
  rw [mcontains_cons]
  by_cases h : a = k <;> simp [h]

theorem length_filter_or_disjoint {α : Type} (S : List α) (p q : α → Bool)
    (h : ∀ x ∈ S, ¬(p x = true ∧ q x = true)) :
    (S.filter (fun x => p x || q x)).length = (S.filter p).length + (S.filter q).length := by
  induction S with
  | nil => rfl
  | cons a S ih =>
    have hd := h a (List.mem_cons_self a S)
    have ih' := ih (fun x hx => h x (List.mem_cons_of_mem a hx))
    rw [List.filter_cons, List.filter_cons, List.filter_cons]
    by_cases hp : p a = true <;> by_cases hq : q a = true
    · exact absurd ⟨hp, hq⟩ hd
    · rw [Bool.not_eq_true] at hq
      simp [hp, hq]
      omega
    · rw [Bool.not_eq_true] at hp
      simp [hp, hq]
      omega
    · rw [Bool.not_eq_true] at hp hq
      simp [hp, hq]
      exact ih'

theorem msum_eq_count (u : List (Int × Int)) :
    ∀ (S : List SectorMetadata), keysNodup u →
    (∀ p ∈ u, p.2 = (keyCount S p.1 : Int)) →
    msum u = ((S.filter (fun x => mcontains u x.key)).length : Int) := by
  induction u with
  | nil =>
    intro S _ _
    have hnil : S.filter (fun x => mcontains [] x.key) = [] := by
      apply List.filter_eq_nil_iff.mpr
      intro x _
      simp [mcontains]
    rw [hnil]
    simp [msum]
  | cons p u ih =>
    intro S hnd hv
    obtain ⟨a, b⟩ := p
    have hb : b = (keyCount S a : Int) := hv (a, b) (List.mem_cons_self _ u)
    have hnd' : keysNodup u := (List.nodup_cons.mp hnd).2
    have hna : a ∉ u.map Prod.fst := (List.nodup_cons.mp hnd).1
    have hdisj : ∀ x ∈ S, ¬((x.key == a) = true ∧ mcontains u x.key = true) := by
      rintro x hx ⟨h1, h2⟩
      have hxa : x.key = a := by simpa using h1
      rw [hxa] at h2
      exact hna ((mcontains_iff_mem_keys u a).mp h2)
    have hsplit := length_filter_or_disjoint S (fun x => x.key == a)
      (fun x => mcontains u x.key) hdisj
    have hcongr : S.filter (fun x => mcontains ((a, b) :: u) x.key)
        = S.filter (fun x => (x.key == a) || mcontains u x.key) := by
      apply List.filter_congr
      intro x _
      rw [mcontains_cons_or]
      congr 1
      by_cases h : a = x.key
      · rw [h]
      · have h2 : ¬(x.key = a) := fun hh => h hh.symm
        simp [h, h2]
    rw [msum_cons, hcongr, hsplit,
      ih S hnd' (fun q hq => hv q (List.mem_cons_of_mem _ hq)), hb]
    have hkc : (S.filter (fun x => x.key == a)).length = keyCount S a := rfl
    rw [hkc]
    push_cast
    ring

theorem length_filter_split {α : Type} (S : List α) (p : α → Bool) :
    (S.filter p).length + (S.filter (fun x => !(p x))).length = S.length := by
  induction S with
  | nil => rfl
  | cons a S ih =>
    rw [List.filter_cons, List.filter_cons]
    by_cases h : p a = true
    · simp [h]
      omega
    · rw [Bool.not_eq_true] at h
      simp [h]
      omega

theorem utilOk_sum (m : SectorMap) (h : UtilOk m) :
    msum m.objUtilizations + (keyCount m.sectors notMappedKey : Int)
      = (m.sectors.length : Int) := by
  obtain ⟨hnd, hinv, hcomp⟩ := h
  have h1 : msum m.objUtilizations
      = ((m.sectors.filter (fun x => mcontains m.objUtilizations x.key)).length : Int) :=
    msum_eq_count m.objUtilizations m.sectors hnd (fun p hp => (hinv p hp).2.1)
  have h2 : m.sectors.filter (fun x => mcontains m.objUtilizations x.key)
      = m.sectors.filter (fun x => x.key != notMappedKey) := by
    apply List.filter_congr
    intro x hx
    by_cases hxk : x.key = notMappedKey
    · have hfalse : mcontains m.objUtilizations x.key = false := by
        by_contra hcon
        rw [Bool.not_eq_false] at hcon
        have hmem := mem_of_mcontains m.objUtilizations x.key hcon
        exact (hinv _ hmem).1 hxk
      rw [hfalse, hxk]
      simp
    · rw [hcomp x hx hxk]
      simp [hxk]
  have h3 : m.sectors.filter (fun x => !(x.key != notMappedKey))
      = m.sectors.filter (fun x => x.key == notMappedKey) := by
    apply List.filter_congr
    intro x _
    simp only [bne, Bool.not_not]
  have h4 := length_filter_split m.sectors (fun x => x.key != notMappedKey)
  rw [h3] at h4
  have h5 : (m.sectors.filter (fun x => x.key == notMappedKey)).length
      = keyCount m.sectors notMappedKey := rfl
  rw [h1, h2]
  rw [h5] at h4
  omega

/-- C4: the utilization inventory (for every key: counter equals the number
of owned sectors, strictly positive, no counter for `-1`; every mapped
sector's key has a counter) holds for a fresh map and is preserved by every
`Update` with a fresh key and in-range extents; consequently the sum of all
counters plus the number of unmapped sectors equals the number of device
sectors, and every key referenced by some sector entry has utilization
strictly greater than zero. -/
theorem sectormap_utilization_invariant :
    (∀ n : Nat, UtilOk (SectorMap.New n)) ∧
    (∀ (m : SectorMap) (extents : List Extent) (start key : Int),
      UtilOk m → mcontains m.objUtilizations key = false →
      key ≠ notMappedKey → keyCount m.sectors key = 0 →
      (∀ e ∈ extents, 0 ≤ e.sector ∧ 0 ≤ e.length ∧
        e.sector + e.length ≤ (m.sectors.length : Int)) →
      UtilOk (SectorMap.Update m extents start key)) ∧
    (∀ m : SectorMap, UtilOk m →
      msum m.objUtilizations + (keyCount m.sectors notMappedKey : Int)
        = (m.sectors.length : Int)) ∧
    (∀ (m : SectorMap) (x : SectorMetadata), UtilOk m → x ∈ m.sectors →
      x.key ≠ notMappedKey → 0 < mget m.objUtilizations x.key) := by
  refine ⟨?_, utilOk_Update, utilOk_sum, ?_⟩
  · intro n
    refine ⟨List.Pairwise.nil, ?_, ?_⟩
    · rintro ⟨k, v⟩ hp
      simp [SectorMap.New] at hp
    · intro x hx hxk
      have := List.eq_of_mem_replicate hx
      rw [this] at hxk
      exact absurd rfl hxk
  · intro m x hok hx hxk
    obtain ⟨hnd, hinv, hcomp⟩ := hok
    have hc := hcomp x hx hxk
    have hmem := mem_of_mcontains m.objUtilizations x.key hc
    exact (hinv _ hmem).2.2

/-- Witness for the utilization invariant at concrete inputs: the invariant
holds for a fresh 2-sector map, survives a first write of both sectors
under key 0, and there the accounting identity and strict positivity are
concrete. -/
theorem sectormap_utilization_invariant_witness :
    UtilOk (SectorMap.New 2) ∧
    UtilOk (SectorMap.Update (SectorMap.New 2)
      [{ sector := 0, length := 2, seqNo := 1, flag := 0 }] 8 0) ∧
    msum (SectorMap.Update (SectorMap.New 2)
        [{ sector := 0, length := 2, seqNo := 1, flag := 0 }] 8 0).objUtilizations
      + (keyCount (SectorMap.Update (SectorMap.New 2)
          [{ sector := 0, length := 2, seqNo := 1, flag := 0 }] 8 0).sectors notMappedKey : Int)
      = ((SectorMap.Update (SectorMap.New 2)
          [{ sector := 0, length := 2, seqNo := 1, flag := 0 }] 8 0).sectors.length : Int) := by
  have h1 := sectormap_utilization_invariant.1 2
  have h2 := sectormap_utilization_invariant.2.1 (SectorMap.New 2)
    [{ sector := 0, length := 2, seqNo := 1, flag := 0 }] 8 0 h1
    (by decide) (by decide) (by decide) (by decide)
  exact ⟨h1, h2, sectormap_utilization_invariant.2.2.1 _ h2⟩

/-!  Run structure of `Lookup` (claim C3). -/

theorem breakCond_eq_not_mergeable (prev cur : SectorMetadata) :
    SectorMap.breakCond prev cur = !(mergeable prev cur) := by
  unfold SectorMap.breakCond mergeable notMappedKey
  cases h1 : cur.key == prev.key <;> cases h2 : cur.sector == prev.sector + 1 <;>
    cases h3 : cur.key == -1 <;> cases h4 : prev.key == -1 <;>
      simp [bne, h1, h2, h3, h4]

theorem getLastD_concat (l : List SectorMetadata) (a : SectorMetadata) :
    ∀ d, (l ++ [a]).getLastD d = a := by
  induction l with
  | nil => intro d; rfl
  | cons x l ih =>
    intro d
    rw [List.cons_append, List.getLastD_cons]
    exact ih x

theorem headD_append_ne_nil (run l : List SectorMetadata) (d : SectorMetadata)
    (h : run ≠ []) : (run ++ l).headD d = run.headD d := by
  cases run with
  | nil => exact absurd rfl h
  | cons a run => rfl

theorem lookupGo_eq_runs :
    ∀ (rest : List SectorMetadata) (prev : SectorMetadata) (s l : Int)
      (run : List SectorMetadata), run ≠ [] →
      run.getLastD default = prev → (run.headD default).sector = s →
      (run.length : Int) = l →
      SectorMap.lookupGo prev s l rest = (runSplitGo prev run rest).map partOfRun := by
  intro rest
  induction rest with
  | nil =>
    intro prev s l run hne hlast hhead hlen
    simp only [SectorMap.lookupGo, runSplitGo, List.map_cons, List.map_nil]
    rw [partOfRun, hlast, hhead, hlen]
  | cons cur rest ih =>
    intro prev s l run hne hlast hhead hlen
    simp only [SectorMap.lookupGo, runSplitGo]
    have hbc := breakCond_eq_not_mergeable prev cur
    by_cases hm : mergeable prev cur = true
    · have hb2 : SectorMap.breakCond prev cur = false := by rw [hbc, hm]; rfl
      rw [if_neg (by rw [hb2]; simp), if_pos hm]
      apply ih cur s (l + 1) (run ++ [cur]) (by simp)
      · exact getLastD_concat run cur default
      · rw [headD_append_ne_nil run [cur] default hne]
        exact hhead
      · simp only [List.length_append, List.length_cons, List.length_nil]
        push_cast
        omega
    · have hm' : mergeable prev cur = false := by
        rwa [Bool.not_eq_true] at hm
      have hb2 : SectorMap.breakCond prev cur = true := by rw [hbc, hm']; rfl
      rw [if_pos hb2, if_neg (by rw [hm']; simp), List.map_cons]
      congr 1
      · rw [partOfRun, hlast, hhead, hlen]
      · exact ih cur cur.sector 1 [cur] (by simp) rfl rfl rfl

theorem flatten_runSplitGo :
    ∀ (rest : List SectorMetadata) (prev : SectorMetadata) (run : List SectorMetadata),
    (runSplitGo prev run rest).flatten = run ++ rest := by
  intro rest
  induction rest with
  | nil =>
    intro prev run
    simp [runSplitGo]
  | cons cur rest ih =>
    intro prev run
    simp only [runSplitGo]
    by_cases hm : mergeable prev cur = true
    · rw [if_pos hm, ih]
      simp
    · rw [if_neg hm, List.flatten_cons, ih]
      simp

theorem runSplitGo_ne_nil :
    ∀ (rest : List SectorMetadata) (prev : SectorMetadata) (run : List SectorMetadata),
    run ≠ [] → ∀ r ∈ runSplitGo prev run rest, r ≠ [] := by
  intro rest
  induction rest with
  | nil =>
    intro prev run hne r hr
    simp only [runSplitGo, List.mem_singleton] at hr
    rw [hr]
    exact hne
  | cons cur rest ih =>
    intro prev run hne r hr
    simp only [runSplitGo] at hr
    by_cases hm : mergeable prev cur = true
    · rw [if_pos hm] at hr
      exact ih cur (run ++ [cur]) (by simp) r hr
    · rw [if_neg hm] at hr
      rcases List.mem_cons.mp hr with rfl | hr
      · exact hne
      · exact ih cur [cur] (by simp) r hr

theorem runSplitGo_result_ne_nil (rest : List SectorMetadata) (prev : SectorMetadata)
    (run : List SectorMetadata) : runSplitGo prev run rest ≠ [] := by
  induction rest generalizing prev run with
  | nil => simp [runSplitGo]
  | cons cur rest ih =>
    simp only [runSplitGo]
    by_cases hm : mergeable prev cur = true
    · rw [if_pos hm]
      exact ih cur (run ++ [cur])
    · rw [if_neg hm]
      simp

theorem chain'_concat_of (run : List SectorMetadata) (cur : SectorMetadata)
    (h : List.Chain' mergeP run) (_hne : run ≠ [])
    (hm : mergeP (run.getLastD default) cur) :
    List.Chain' mergeP (run ++ [cur]) := by
  rw [List.chain'_append]
  refine ⟨h, List.chain'_singleton cur, ?_⟩
  intro x hx y hy
  simp only [List.head?_cons, Option.mem_def, Option.some.injEq] at hy
  subst hy
  rw [Option.mem_def] at hx
  have hvd : run.getLastD default = x := by
    rw [List.getLastD_eq_getLast?, hx]
    rfl
  rw [← hvd]
  exact hm

theorem runSplitGo_chain :
    ∀ (rest : List SectorMetadata) (prev : SectorMetadata) (run : List SectorMetadata),
    run ≠ [] → run.getLastD default = prev → List.Chain' mergeP run →
    ∀ r ∈ runSplitGo prev run rest, List.Chain' mergeP r := by
  intro rest
  induction rest with
  | nil =>
    intro prev run _ _ hchain r hr
    simp only [runSplitGo, List.mem_singleton] at hr
    rw [hr]
    exact hchain
  | cons cur rest ih =>
    intro prev run hne hlast hchain r hr
    simp only [runSplitGo] at hr
    by_cases hm : mergeable prev cur = true
    · rw [if_pos hm] at hr
      apply ih cur (run ++ [cur]) (by simp) (getLastD_concat run cur default) _ r hr
      exact chain'_concat_of run cur hchain hne (by rw [hlast]; exact hm)
    · rw [if_neg hm] at hr
      rcases List.mem_cons.mp hr with rfl | hr
      · exact hchain
      · exact ih cur [cur] (by simp) rfl (List.chain'_singleton cur) r hr

theorem runSplitGo_head :
    ∀ (rest : List SectorMetadata) (prev : SectorMetadata) (run : List SectorMetadata)
      (d : SectorMetadata), run ≠ [] →
    ((runSplitGo prev run rest).headD []).headD d = run.headD d := by
  intro rest
  induction rest with
  | nil => intro prev run d _; rfl
  | cons cur rest ih =>
    intro prev run d hne
    simp only [runSplitGo]
    by_cases hm : mergeable prev cur = true
    · rw [if_pos hm, ih cur (run ++ [cur]) d (by simp)]
      exact headD_append_ne_nil run [cur] d hne
    · rw [if_neg hm]
      rfl

theorem runSplitGo_boundaries :
    ∀ (rest : List SectorMetadata) (prev : SectorMetadata) (run : List SectorMetadata),
    run ≠ [] → run.getLastD default = prev →
    List.Chain' (fun r₁ r₂ => mergeable (r₁.getLastD default) (r₂.headD default) = false)
      (runSplitGo prev run rest) := by
  intro rest
  induction rest with
  | nil =>
    intro prev run _ _
    exact List.chain'_singleton run
  | cons cur rest ih =>
    intro prev run hne hlast
    simp only [runSplitGo]
    by_cases hm : mergeable prev cur = true
    · rw [if_pos hm]
      exact ih cur (run ++ [cur]) (by simp) (getLastD_concat run cur default)
    · rw [if_neg hm]
      have hm' : mergeable prev cur = false := by rwa [Bool.not_eq_true] at hm
      cases hrs : runSplitGo cur [cur] rest with
      | nil => exact absurd hrs (runSplitGo_result_ne_nil rest cur [cur])
      | cons r0 rs =>
        rw [List.chain'_cons']
        constructor
        · intro y hy
          rw [List.head?_cons, Option.mem_def, Option.some.injEq] at hy
          subst hy
          have hh := runSplitGo_head rest cur [cur] default (by simp)
          rw [hrs] at hh
          simp only [List.headD_cons] at hh
          rw [hh, hlast]
          exact hm'
        · rw [← hrs]
          exact ih cur [cur] (by simp) rfl

theorem runSplitGo_length :
    ∀ (rest : List SectorMetadata) (prev : SectorMetadata) (run : List SectorMetadata),
    (runSplitGo prev run rest).length = 1 + breaks prev rest := by
  intro rest
  induction rest with
  | nil => intro prev run; rfl
  | cons cur rest ih =>
    intro prev run
    simp only [runSplitGo, breaks]
    by_cases hm : mergeable prev cur = true
    · rw [if_pos hm, if_pos hm, ih]
      omega
    · rw [if_neg hm, if_neg hm, List.length_cons, ih]
      omega

theorem breaks_eq_zero_of_chain :
    ∀ (l : List SectorMetadata) (prev : SectorMetadata),
    List.Chain' mergeP (prev :: l) → breaks prev l = 0 := by
  intro l
  induction l with
  | nil => intro prev _; rfl
  | cons cur rest ih =>
    intro prev hchain
    rw [List.chain'_cons] at hchain
    rw [breaks, if_pos (show mergeable prev cur = true from hchain.1), ih cur hchain.2]

theorem breaks_append_le :
    ∀ (l₁ : List SectorMetadata) (p z : SectorMetadata) (zs : List SectorMetadata),
    breaks p (l₁ ++ z :: zs) ≤ breaks p l₁ + 1 + breaks z zs := by
  intro l₁
  induction l₁ with
  | nil =>
    intro p z zs
    simp only [List.nil_append, List.append_eq, breaks]
    by_cases hm : mergeable p z = true
    · simp only [if_pos hm]
      omega
    · simp only [if_neg hm]
      omega
  | cons a l₁ ih =>
    intro p z zs
    simp only [List.cons_append, List.append_eq, breaks]
    have := ih a z zs
    simp only [List.append_eq] at this
    omega

theorem min_partition :
    ∀ (alt : List (List SectorMetadata)) (x : SectorMetadata) (xs : List SectorMetadata),
    (∀ r ∈ alt, r ≠ [] ∧ List.Chain' mergeP r) → alt.flatten = x :: xs →
    1 + breaks x xs ≤ alt.length := by
  intro alt
  induction alt with
  | nil =>
    intro x xs _ hjoin
    simp at hjoin
  | cons r alt ih =>
    intro x xs hr hjoin
    obtain ⟨hne, hchain⟩ := hr r (List.mem_cons_self r alt)
    cases r with
    | nil => exact absurd rfl hne
    | cons y ys =>
      rw [List.flatten_cons, List.cons_append, List.cons.injEq] at hjoin
      obtain ⟨rfl, hxs⟩ := hjoin
      have hzero : breaks y ys = 0 := breaks_eq_zero_of_chain ys y hchain
      cases halt : alt.flatten with
      | nil =>
        rw [halt, List.append_nil] at hxs
        rw [← hxs, hzero]
        simp
      | cons z zs =>
        rw [halt] at hxs
        have hihz := ih z zs (fun q hq => hr q (List.mem_cons_of_mem _ hq)) halt
        rw [← hxs]
        have hle := breaks_append_le ys y z zs
        rw [hzero] at hle
        simp only [List.length_cons]
        omega

theorem mergeP_key (a b : SectorMetadata) (h : mergeP a b) : b.key = a.key := by
  unfold mergeP mergeable at h
  by_cases hk : b.key = a.key
  · exact hk
  · have h1 : (b.key == a.key) = false := by simp [hk]
    rw [h1] at h
    simp at h
    rw [h.1, h.2]

theorem getLastD_indep :
    ∀ (l : List SectorMetadata) (b d d' : SectorMetadata),
    (b :: l).getLastD d = (b :: l).getLastD d' := by
  intro l
  induction l with
  | nil => intro b d d'; rfl
  | cons c r ih =>
    intro b d d'
    have h1 := List.getLastD_cons d b (c :: r)
    have h2 := List.getLastD_cons d' b (c :: r)
    rw [h1, h2]

theorem chain_key_eq :
    ∀ (r : List SectorMetadata), List.Chain' mergeP r →
    ∀ a ∈ r, a.key = (r.getLastD default).key := by
  intro r
  induction r with
  | nil => intro _ a ha; simp at ha
  | cons x r ih =>
    intro hchain a ha
    cases r with
    | nil =>
      rw [List.mem_singleton.mp ha]
      rfl
    | cons b r' =>
      rw [List.chain'_cons] at hchain
      have hlast : ((x :: b :: r').getLastD default) = ((b :: r').getLastD default) := by
        rw [List.getLastD_cons]
        exact getLastD_indep r' b x default
      rw [hlast]
      rcases List.mem_cons.mp ha with rfl | ha
      · have h1 : b.key = a.key := mergeP_key a b hchain.1
        rw [← h1]
        exact ih hchain.2 b (List.mem_cons_self b r')
      · exact ih hchain.2 a ha

theorem sum_parts_length (runs : List (List SectorMetadata)) :
    ((runs.map partOfRun).map ObjectPart.length).sum = (runs.flatten.length : Int) := by
  induction runs with
  | nil => rfl
  | cons r runs ih =>
    rw [List.map_cons, List.map_cons, List.sum_cons, ih, List.flatten_cons, List.length_append]
    show (r.length : Int) + _ = _
    push_cast
    ring

theorem lookup_eq_runs (m : SectorMap) (sector length : Int)
    (h0 : 0 ≤ sector) (h1 : 1 ≤ length) (hb : sector + length ≤ (m.sectors.length : Int)) :
    SectorMap.Lookup m sector length
      = (runSplit ((m.sectors.drop sector.toNat).take length.toNat)).map partOfRun := by
  have hne : (m.sectors.drop sector.toNat).take length.toNat ≠ [] := by
    have hlen : ((m.sectors.drop sector.toNat).take length.toNat).length
        = length.toNat := by
      rw [List.length_take, List.length_drop]
      omega
    intro h
    rw [h] at hlen
    simp at hlen
    omega
  obtain ⟨first, rest, hsl⟩ := List.exists_cons_of_ne_nil hne
  unfold SectorMap.Lookup
  rw [hsl, runSplit]
  exact lookupGo_eq_runs rest first first.sector 1 [first] (by simp) rfl rfl rfl

/-- C3: for an in-range `lookup(sector, length)` with `length ≥ 1`, the
returned parts are exactly the images of the maximal mergeable runs of the
scanned sector entries, in order (so the parts cover the range exactly,
ordered by logical position, with no gaps or overlaps); the part lengths
are positive and sum to `length`; two successive entries stay in the same
part exactly when they are mergeable — same key with ascending consecutive
in-object positions, or both unmapped — so runs of unmapped entries come
back as single parts whose key is `-1` (every entry of a run carries the
part's key); and no covering by mergeable-chained runs uses fewer parts. -/
theorem lookup_parts_characterization (m : SectorMap) (sector length : Int)
    (h0 : 0 ≤ sector) (h1 : 1 ≤ length) (hb : sector + length ≤ (m.sectors.length : Int)) :
    SectorMap.Lookup m sector length
      = (runSplit ((m.sectors.drop sector.toNat).take length.toNat)).map partOfRun ∧
    (runSplit ((m.sectors.drop sector.toNat).take length.toNat)).flatten
      = (m.sectors.drop sector.toNat).take length.toNat ∧
    ((SectorMap.Lookup m sector length).map ObjectPart.length).sum = length ∧
    (∀ p ∈ SectorMap.Lookup m sector length, 1 ≤ p.length) ∧
    (∀ r ∈ runSplit ((m.sectors.drop sector.toNat).take length.toNat),
      r ≠ [] ∧ List.Chain' mergeP r ∧ ∀ a ∈ r, a.key = (partOfRun r).key) ∧
    List.Chain' (fun r₁ r₂ => mergeable (r₁.getLastD default) (r₂.headD default) = false)
      (runSplit ((m.sectors.drop sector.toNat).take length.toNat)) ∧
    (∀ alt : List (List SectorMetadata),
      (∀ r ∈ alt, r ≠ [] ∧ List.Chain' mergeP r) →
      alt.flatten = (m.sectors.drop sector.toNat).take length.toNat →
      (runSplit ((m.sectors.drop sector.toNat).take length.toNat)).length ≤ alt.length) := by
  have hlen : ((m.sectors.drop sector.toNat).take length.toNat).length = length.toNat := by
    rw [List.length_take, List.length_drop]
    omega
  have hne : (m.sectors.drop sector.toNat).take length.toNat ≠ [] := by
    intro h
    rw [h] at hlen
    simp at hlen
    omega
  obtain ⟨first, rest, hsl⟩ := List.exists_cons_of_ne_nil hne
  have heq := lookup_eq_runs m sector length h0 h1 hb
  have hflat : (runSplit ((m.sectors.drop sector.toNat).take length.toNat)).flatten
      = (m.sectors.drop sector.toNat).take length.toNat := by
    rw [hsl, runSplit]
    exact flatten_runSplitGo rest first [first]
  refine ⟨heq, hflat, ?_, ?_, ?_, ?_, ?_⟩
  · rw [heq, sum_parts_length, hflat, hlen]
    omega
  · intro p hp
    rw [heq] at hp
    obtain ⟨r, hr, rfl⟩ := List.mem_map.mp hp
    have hrne : r ≠ [] := by
      rw [hsl, runSplit] at hr
      exact runSplitGo_ne_nil rest first [first] (by simp) r hr
    show 1 ≤ (r.length : Int)
    have : 0 < r.length := List.length_pos.mpr hrne
    omega
  · intro r hr
    rw [hsl, runSplit] at hr
    refine ⟨runSplitGo_ne_nil rest first [first] (by simp) r hr,
      runSplitGo_chain rest first [first] (by simp) rfl (List.chain'_singleton first) r hr, ?_⟩
    intro a ha
    exact chain_key_eq r
      (runSplitGo_chain rest first [first] (by simp) rfl (List.chain'_singleton first) r hr) a ha
  · rw [hsl, runSplit]
    exact runSplitGo_boundaries rest first [first] (by simp) rfl
  · intro alt halt hjoin
    rw [hsl] at hjoin
    have := min_partition alt first rest halt hjoin
    rw [hsl, runSplit, runSplitGo_length]
    omega

/-- Witness for the `Lookup` characterization on a concrete map: two
sectors written under key 0, the next overwritten by key 1, the last
unmapped, looked up over the whole device. -/
theorem lookup_parts_characterization_witness :
    SectorMap.Lookup (SectorMap.Update (SectorMap.Update (SectorMap.New 4)
        [{ sector := 0, length := 2, seqNo := 1, flag := 0 }] 8 0)
        [{ sector := 1, length := 2, seqNo := 2, flag := 0 }] 8 1) 0 4
      = (runSplit ((((SectorMap.Update (SectorMap.Update (SectorMap.New 4)
          [{ sector := 0, length := 2, seqNo := 1, flag := 0 }] 8 0)
          [{ sector := 1, length := 2, seqNo := 2, flag := 0 }] 8 1).sectors.drop
            (0 : Int).toNat).take (4 : Int).toNat))).map partOfRun ∧
    ((SectorMap.Lookup (SectorMap.Update (SectorMap.Update (SectorMap.New 4)
        [{ sector := 0, length := 2, seqNo := 1, flag := 0 }] 8 0)
        [{ sector := 1, length := 2, seqNo := 2, flag := 0 }] 8 1) 0 4).map
        ObjectPart.length).sum = 4 := by
  have h := lookup_parts_characterization (SectorMap.Update (SectorMap.Update (SectorMap.New 4)
      [{ sector := 0, length := 2, seqNo := 1, flag := 0 }] 8 0)
      [{ sector := 1, length := 2, seqNo := 2, flag := 0 }] 8 1) 0 4
      (by decide) (by decide) (by decide)
  exact ⟨h.1, h.2.2.1⟩
